import Mathlib

/-
Verification of the composite-key document store in src/server/document_store.py.

The embedding models Python runtime values with the inductive type PyVal:
None, int (covering the numeric scalars used by the store), str, bool,
dict (an insertion-ordered association list, as in CPython), class
instances (constructor name plus the ordered field map behind obj.__dict__),
and tuple (which also stands for the BSON arrays produced by pymongo, since
the two are interconverted at the driver boundary).

Class declarations are modelled by TypeDesc: the ordered list of annotated
fields together with their PartitionKey / SortKey / CopyOfKey markers, which
is exactly the information get_type_hints(cls, include_extras=True) exposes
to DocumentStore._discover_attrs_for and default_to_dict.

A resolved store instance (self._key_attrs, self._partition_attrs,
self._sort_attrs, self.key_type, self.data_type) is modelled by StoreConfig.
Schema discovery is deterministic and idempotent, so the lazy caching done by
DocumentStore._discover_attrs is modelled by working with the resolved lists.
-/

inductive PyVal where
  | vnone : PyVal
  | vint (i : Int) : PyVal
  | vstr (s : String) : PyVal
  | vbool (b : Bool) : PyVal
  | vdict (l : List (String × PyVal)) : PyVal
  | vobj (cls : String) (l : List (String × PyVal)) : PyVal
  | vtup (l : List PyVal) : PyVal

/-- A record field map (attribute name to value), the universal value
representation used by the store backends. -/
abbrev DataDict := List (String × PyVal)

/-- Python truthiness of the modelled values: bool(obj). Class instances
without __bool__ or __len__ are always truthy. -/
def truthy : PyVal → Bool
  | .vnone => false
  | .vint i => i != 0
  | .vstr s => s != ""
  | .vbool b => b
  | .vdict l => !l.isEmpty
  | .vobj _ _ => true
  | .vtup l => !l.isEmpty

/-- The isinstance(obj, (str, int, float, bool, datetime.date, tuple)) test
used by DocumentStore._get_key_tuple, restricted to the modelled scalars. -/
def isScalarOrTup : PyVal → Bool
  | .vint _ => true
  | .vstr _ => true
  | .vbool _ => true
  | .vtup _ => true
  | _ => false

/-- The same isinstance test without the tuple alternative (a bare scalar). -/
def isScalar : PyVal → Bool
  | .vint _ => true
  | .vstr _ => true
  | .vbool _ => true
  | _ => false

/-- The wrapping step obj if isinstance(obj, tuple) else (obj,). -/
def asTuple : PyVal → List PyVal
  | .vtup l => l
  | v => [v]

/-- isinstance(obj, dict). -/
def isDict : PyVal → Bool
  | .vdict _ => true
  | _ => false

mutual

/-- Structural (BSON) equality, as used by MongoDB when matching an _id or
an items.sk entry against a query value: type-sensitive and sensitive to the
field order of embedded documents. -/
def mongoEq : PyVal → PyVal → Bool
  | .vnone, .vnone => true
  | .vint i, .vint j => i == j
  | .vstr s, .vstr t => s == t
  | .vbool a, .vbool b => a == b
  | .vdict l, .vdict m => mongoEqPairs l m
  | .vobj c l, .vobj d m => c == d && mongoEqPairs l m
  | .vtup l, .vtup m => mongoEqList l m
  | _, _ => false

def mongoEqList : List PyVal → List PyVal → Bool
  | [], [] => true
  | a :: as, b :: bs => mongoEq a b && mongoEqList as bs
  | _, _ => false

def mongoEqPairs : List (String × PyVal) → List (String × PyVal) → Bool
  | [], [] => true
  | (k, a) :: as, (l, b) :: bs => k == l && mongoEq a b && mongoEqPairs as bs
  | _, _ => false

end

mutual

def pyDecEq : (a b : PyVal) → Decidable (a = b)
  | .vnone, .vnone => isTrue rfl
  | .vint i, .vint j =>
    match decEq i j with
    | isTrue h => isTrue (by rw [h])
    | isFalse h => isFalse (fun hh => by cases hh; exact h rfl)
  | .vstr s, .vstr t =>
    match decEq s t with
    | isTrue h => isTrue (by rw [h])
    | isFalse h => isFalse (fun hh => by cases hh; exact h rfl)
  | .vbool a, .vbool b =>
    match decEq a b with
    | isTrue h => isTrue (by rw [h])
    | isFalse h => isFalse (fun hh => by cases hh; exact h rfl)
  | .vdict l, .vdict m =>
    match pyDecEqPairs l m with
    | isTrue h => isTrue (by rw [h])
    | isFalse h => isFalse (fun hh => by cases hh; exact h rfl)
  | .vobj c l, .vobj d m =>
    match decEq c d, pyDecEqPairs l m with
    | isTrue h1, isTrue h2 => isTrue (by rw [h1, h2])
    | isFalse h1, _ => isFalse (fun hh => by cases hh; exact h1 rfl)
    | _, isFalse h2 => isFalse (fun hh => by cases hh; exact h2 rfl)
  | .vtup l, .vtup m =>
    match pyDecEqList l m with
    | isTrue h => isTrue (by rw [h])
    | isFalse h => isFalse (fun hh => by cases hh; exact h rfl)
  | .vnone, .vint _ => isFalse (fun hh => by cases hh)
  | .vnone, .vstr _ => isFalse (fun hh => by cases hh)
  | .vnone, .vbool _ => isFalse (fun hh => by cases hh)
  | .vnone, .vdict _ => isFalse (fun hh => by cases hh)
  | .vnone, .vobj _ _ => isFalse (fun hh => by cases hh)
  | .vnone, .vtup _ => isFalse (fun hh => by cases hh)
  | .vint _, .vnone => isFalse (fun hh => by cases hh)
  | .vint _, .vstr _ => isFalse (fun hh => by cases hh)
  | .vint _, .vbool _ => isFalse (fun hh => by cases hh)
  | .vint _, .vdict _ => isFalse (fun hh => by cases hh)
  | .vint _, .vobj _ _ => isFalse (fun hh => by cases hh)
  | .vint _, .vtup _ => isFalse (fun hh => by cases hh)
  | .vstr _, .vnone => isFalse (fun hh => by cases hh)
  | .vstr _, .vint _ => isFalse (fun hh => by cases hh)
  | .vstr _, .vbool _ => isFalse (fun hh => by cases hh)
  | .vstr _, .vdict _ => isFalse (fun hh => by cases hh)
  | .vstr _, .vobj _ _ => isFalse (fun hh => by cases hh)
  | .vstr _, .vtup _ => isFalse (fun hh => by cases hh)
  | .vbool _, .vnone => isFalse (fun hh => by cases hh)
  | .vbool _, .vint _ => isFalse (fun hh => by cases hh)
  | .vbool _, .vstr _ => isFalse (fun hh => by cases hh)
  | .vbool _, .vdict _ => isFalse (fun hh => by cases hh)
  | .vbool _, .vobj _ _ => isFalse (fun hh => by cases hh)
  | .vbool _, .vtup _ => isFalse (fun hh => by cases hh)
  | .vdict _, .vnone => isFalse (fun hh => by cases hh)
  | .vdict _, .vint _ => isFalse (fun hh => by cases hh)
  | .vdict _, .vstr _ => isFalse (fun hh => by cases hh)
  | .vdict _, .vbool _ => isFalse (fun hh => by cases hh)
  | .vdict _, .vobj _ _ => isFalse (fun hh => by cases hh)
  | .vdict _, .vtup _ => isFalse (fun hh => by cases hh)
  | .vobj _ _, .vnone => isFalse (fun hh => by cases hh)
  | .vobj _ _, .vint _ => isFalse (fun hh => by cases hh)
  | .vobj _ _, .vstr _ => isFalse (fun hh => by cases hh)
  | .vobj _ _, .vbool _ => isFalse (fun hh => by cases hh)
  | .vobj _ _, .vdict _ => isFalse (fun hh => by cases hh)
  | .vobj _ _, .vtup _ => isFalse (fun hh => by cases hh)
  | .vtup _, .vnone => isFalse (fun hh => by cases hh)
  | .vtup _, .vint _ => isFalse (fun hh => by cases hh)
  | .vtup _, .vstr _ => isFalse (fun hh => by cases hh)
  | .vtup _, .vbool _ => isFalse (fun hh => by cases hh)
  | .vtup _, .vdict _ => isFalse (fun hh => by cases hh)
  | .vtup _, .vobj _ _ => isFalse (fun hh => by cases hh)

def pyDecEqList : (l m : List PyVal) → Decidable (l = m)
  | [], [] => isTrue rfl
  | a :: as, b :: bs =>
    match pyDecEq a b, pyDecEqList as bs with
    | isTrue h1, isTrue h2 => isTrue (by rw [h1, h2])
    | isFalse h1, _ => isFalse (fun hh => by cases hh; exact h1 rfl)
    | _, isFalse h2 => isFalse (fun hh => by cases hh; exact h2 rfl)
  | [], _ :: _ => isFalse (fun hh => by cases hh)
  | _ :: _, [] => isFalse (fun hh => by cases hh)

def pyDecEqPairs : (l m : List (String × PyVal)) → Decidable (l = m)
  | [], [] => isTrue rfl
  | (k, a) :: as, (l, b) :: bs =>
    match decEq k l, pyDecEq a b, pyDecEqPairs as bs with
    | isTrue h0, isTrue h1, isTrue h2 => isTrue (by rw [h0, h1, h2])
    | isFalse h0, _, _ => isFalse (fun hh => by cases hh; exact h0 rfl)
    | _, isFalse h1, _ => isFalse (fun hh => by cases hh; exact h1 rfl)
    | _, _, isFalse h2 => isFalse (fun hh => by cases hh; exact h2 rfl)
  | [], _ :: _ => isFalse (fun hh => by cases hh)
  | _ :: _, [] => isFalse (fun hh => by cases hh)

end

instance : DecidableEq PyVal := pyDecEq

/-- Numeric view of a value for the Python cross-type numeric comparisons
(True == 1, False == 0). -/
def pyNum : PyVal → Option Int
  | .vint i => some i
  | .vbool b => some (if b then 1 else 0)
  | _ => none

mutual

/-- Python equality (the == operator) on the modelled values: structural, with
numeric coercion between bool and int, and element-wise on tuples and dicts.
Dict equality in CPython ignores insertion order; the only dicts compared
with == in the verified code paths are produced by one deterministic encoder,
so order-sensitive comparison coincides with CPython on those inputs. -/
def pyBeq : PyVal → PyVal → Bool
  | .vnone, .vnone => true
  | .vstr s, .vstr t => s == t
  | .vdict l, .vdict m => pyBeqPairs l m
  | .vobj c l, .vobj d m => c == d && pyBeqPairs l m
  | .vtup l, .vtup m => pyBeqList l m
  | a, b =>
    match pyNum a, pyNum b with
    | some m, some n => m == n
    | _, _ => false

def pyBeqList : List PyVal → List PyVal → Bool
  | [], [] => true
  | a :: as, b :: bs => pyBeq a b && pyBeqList as bs
  | _, _ => false

def pyBeqPairs : List (String × PyVal) → List (String × PyVal) → Bool
  | [], [] => true
  | (k, a) :: as, (l, b) :: bs => k == l && pyBeq a b && pyBeqPairs as bs
  | _, _ => false

end

mutual

/-- Python ordering (the <= operator) on the modelled values, returning none
where CPython raises TypeError (None, dicts, objects, mixed non-numeric
types). Strings compare lexicographically, numbers numerically with bool
coercion, tuples lexicographically via pyTupLeO. -/
def pyLeO : PyVal → PyVal → Option Bool
  | .vstr s, .vstr t => some (s ≤ t)
  | .vtup l, .vtup m => pyTupLeO l m
  | a, b =>
    match pyNum a, pyNum b with
    | some m, some n => some (m ≤ n)
    | _, _ => none

/-- Python strict ordering (the < operator), same conventions as pyLeO. -/
def pyLtO : PyVal → PyVal → Option Bool
  | .vstr s, .vstr t => some (s < t)
  | .vtup l, .vtup m => pyTupLtO l m
  | a, b =>
    match pyNum a, pyNum b with
    | some m, some n => some (m < n)
    | _, _ => none

/-- CPython tuple <=: skip the longest common prefix of pairwise-equal
elements, then compare the first differing pair with <=; if one tuple is a
prefix of the other, the shorter one is smaller-or-equal. -/
def pyTupLeO : List PyVal → List PyVal → Option Bool
  | [], _ => some true
  | _ :: _, [] => some false
  | a :: as, b :: bs => if pyBeq a b then pyTupLeO as bs else pyLeO a b

/-- CPython tuple <, same scheme as pyTupLeO. -/
def pyTupLtO : List PyVal → List PyVal → Option Bool
  | [], [] => some false
  | [], _ :: _ => some true
  | _ :: _, [] => some false
  | a :: as, b :: bs => if pyBeq a b then pyTupLtO as bs else pyLtO a b

end

/-- Annotation markers attached to a field through Annotated[...], as read by
DocumentStore._discover_attrs_for and default_to_dict. Using the bare marker
class instead of an instance behaves like order = 0, which the model subsumes
(the source reads m.order when m is an instance and 0 otherwise). -/
inductive Marker where
  | partitionKey (order : Int) : Marker
  | sortKey (order : Int) : Marker
  | copyOfKey : Marker
  deriving DecidableEq

/-- A class declaration as seen by get_type_hints: the annotated fields in
declaration order, each with its marker metadata in annotation order. -/
abbrev TypeDesc := List (String × List Marker)

/-- The (order, name) pairs collected for PartitionKey markers, in field
declaration order (and metadata order within one field). -/
def pkPairs (td : TypeDesc) : List (Int × String) :=
  td.flatMap (fun f =>
    f.2.filterMap (fun m =>
      match m with
      | .partitionKey o => some (o, f.1)
      | _ => none))

/-- The (order, name) pairs collected for SortKey markers. -/
def skPairs (td : TypeDesc) : List (Int × String) :=
  td.flatMap (fun f =>
    f.2.filterMap (fun m =>
      match m with
      | .sortKey o => some (o, f.1)
      | _ => none))

/-- The comparison function of p_attrs.sort(key=lambda x: x[0]): compare by
ordinal only. list.sort is stable, as is List.mergeSort. -/
def ordinalLe (a b : Int × String) : Bool := a.1 ≤ b.1

/-- DocumentStore._discover_attrs_for: collect the marked fields, stable-sort
each list by ordinal, return (all_names, partition_names, sort_names). The
Python body wraps the get_type_hints call in try/except and so never raises;
the model is total by construction. -/
def discoverAttrsFor (td : TypeDesc) : List String × List String × List String :=
  let p := (pkPairs td).mergeSort ordinalLe
  let s := (skPairs td).mergeSort ordinalLe
  (p.map Prod.snd ++ s.map Prod.snd, p.map Prod.snd, s.map Prod.snd)

/-- The fields of a class annotated with CopyOfKey, as collected by
default_to_dict. -/
def copyOfKeyFields (td : TypeDesc) : List String :=
  td.filterMap (fun f => if f.2.contains Marker.copyOfKey then some f.1 else none)

/-- DocumentStore._get_copy_of_key_field: the first CopyOfKey-annotated field
of the class, if any. -/
def copyOfKeyField (td : TypeDesc) : Option String :=
  (td.find? (fun f => f.2.contains Marker.copyOfKey)).map Prod.fst

/-- The k.startswith(underscore) test of default_to_dict, stated on the
character sequence so that it evaluates by kernel reduction; it agrees with
String.startsWith on the one-character pattern used by the source. -/
def startsWithUnderscore (s : String) : Bool :=
  match s.data with
  | [] => false
  | c :: _ => c == '_'

/-- default_to_dict(obj) where td describes type(obj): for a class instance,
keep the fields of obj.__dict__ whose value is truthy, whose name does not
start with an underscore and which are not CopyOfKey-annotated; a dict passes
through unchanged; any other value is wrapped as {"value": obj}. -/
def default_to_dict (td : TypeDesc) (obj : PyVal) : DataDict :=
  match obj with
  | .vobj _ flds =>
    flds.filter (fun f =>
      truthy f.2 && !startsWithUnderscore f.1 && !(copyOfKeyFields td).contains f.1)
  | .vdict l => l
  | v => [("value", v)]

/-- The d.get(attr) lookup used when projecting attribute tuples: absent
attributes become None. -/
def dictGet (d : DataDict) (attr : String) : PyVal :=
  match d.find? (fun p => p.1 == attr) with
  | some p => p.2
  | none => .vnone

/-- DocumentStore._get_key_tuple(obj, attrs). selfKeyAttrs stands for the
resolved self._key_attrs (with None modelled by the empty list, which Python
treats identically under the falsiness tests used here), objTy describes
type(obj). When the effective attribute list is empty and the object is not
a scalar or tuple, the attributes are discovered from type(obj); scalars wrap
into a 1-tuple, tuples pass through, and otherwise the object is converted
with default_to_dict (or used directly when it is a dict) and the attributes
are projected with d.get. The early scalar return inside the discovery branch
of the source coincides with the scalar test that follows it. -/
def getKeyTuple (selfKeyAttrs : List String) (objTy : TypeDesc) (obj : PyVal)
    (attrs : Option (List String)) : List PyVal :=
  let keyAttrs := attrs.getD selfKeyAttrs
  let keyAttrs := if keyAttrs.isEmpty then (discoverAttrsFor objTy).1 else keyAttrs
  if isScalarOrTup obj then asTuple obj
  else
    let d := match obj with
      | .vdict l => l
      | _ => default_to_dict objTy obj
    keyAttrs.map (fun a => dictGet d a)

/-- The shape of self.key_type: a scalar type (str, int, float, bool, date),
the tuple type, or a user class with its declaration. -/
inductive KeyTy where
  | scalarK : KeyTy
  | tupleK : KeyTy
  | classK (name : String) (td : TypeDesc) : KeyTy

/-- A resolved DocumentStore instance: the cached attribute lists, the key and
data types, and the TypeDesc of the key type used for discovery on key
objects. Custom to_dict_fn / from_dict_fn hooks are not modelled; the claims
concern stores built with the default codecs. -/
structure StoreConfig where
  keyAttrs : List String
  partitionAttrs : List String
  sortAttrs : List String
  keyType : Option KeyTy
  dataType : Option KeyTy
  keyTd : TypeDesc

/-- DocumentStore._get_partition_key_tuple with a resolved schema: project
self._partition_attrs when present, otherwise fall back to the full key
tuple. -/
def getPartitionKeyTuple (cfg : StoreConfig) (obj : PyVal) : List PyVal :=
  if !cfg.partitionAttrs.isEmpty then
    getKeyTuple cfg.keyAttrs cfg.keyTd obj (some cfg.partitionAttrs)
  else
    getKeyTuple cfg.keyAttrs cfg.keyTd obj none

/-- DocumentStore._get_sort_key_tuple with a resolved schema, generalised over
the TypeDesc of the argument (the method is applied both to key objects and
to raw stored sort-key values, whose dict and scalar cases never consult the
TypeDesc). -/
def getSortKeyTupleAux (cfg : StoreConfig) (objTy : TypeDesc) (obj : PyVal) : List PyVal :=
  if !cfg.sortAttrs.isEmpty then
    getKeyTuple cfg.keyAttrs objTy obj (some cfg.sortAttrs)
  else []

/-- DocumentStore._get_sort_key_tuple applied to a key object. -/
def getSortKeyTuple (cfg : StoreConfig) (obj : PyVal) : List PyVal :=
  getSortKeyTupleAux cfg cfg.keyTd obj

/-- Build a dict by repeated assignment (d[k] = v): replace the value at an
existing key in place, else append. This is CPython dict update semantics
restricted to the string keys used by the store. -/
def dictInsertS (l : DataDict) (k : String) (v : PyVal) : DataDict :=
  if l.any (fun p => p.1 == k) then
    l.map (fun p => if p.1 == k then (p.1, v) else p)
  else l ++ [(k, v)]

/-- Constructing cls(**kwargs) for a modelled dataclass: succeeds when the
keyword set matches the declared fields exactly (the modelled classes have no
field defaults), producing the instance whose __dict__ lists the declared
fields in declaration order with the supplied values. -/
def constructClass (name : String) (td : TypeDesc) (kwargs : DataDict) : Option PyVal :=
  if td.all (fun f => kwargs.any (fun p => p.1 == f.1)) &&
     kwargs.all (fun p => td.any (fun f => f.1 == p.1)) then
    some (.vobj name (td.map (fun f => (f.1, dictGet kwargs f.1))))
  else none

/-- DocumentStore._reconstruct_key with a resolved schema: scalar key types
take the first component, tuple key types the whole tuple; class key types
are built from the kwargs dict zipping self._key_attrs with the components
(components beyond the attribute list are dropped, attributes beyond the
components are left unset); on construction failure, and when no key type is
configured, a single component is returned bare and several as a tuple. The
source indexes values[0] for scalar key types, which presupposes a nonempty
tuple; the model returns None on the empty tuple, a case no caller hits. -/
def reconstructKey (cfg : StoreConfig) (values : List PyVal) : PyVal :=
  let fallback := if values.length == 1 then values.headD .vnone else .vtup values
  match cfg.keyType with
  | some .scalarK => values.headD .vnone
  | some .tupleK => .vtup values
  | some (.classK name td) =>
    let kwargs := (cfg.keyAttrs.zip values).foldl (fun d p => dictInsertS d p.1 p.2) []
    match constructClass name td kwargs with
    | some obj => obj
    | none => fallback
  | none => fallback

/-- DocumentStore._populate_copy_of_key_field: overwrite the CopyOfKey field
of the object with the key when the data type declares one and the object has
that attribute. -/
def populateCopyOfKey (cfg : StoreConfig) (obj : PyVal) (key : PyVal) : PyVal :=
  match cfg.dataType with
  | some (.classK _ td) =>
    match copyOfKeyField td with
    | some f =>
      match obj with
      | .vobj n flds =>
        if flds.any (fun p => p.1 == f) then
          .vobj n (flds.map (fun p => if p.1 == f then (p.1, key) else p))
        else obj
      | o => o
    | none => obj
  | _ => obj

/-- DocumentStore._from_data_dict with the default codec: build the data type
from the field map (inserting None for an absent CopyOfKey field first),
falling back to the raw dict when construction fails; then, when a key is
supplied and the result is not a dict, populate the CopyOfKey field with the
key. A missing or scalar data type leaves the dict untouched. -/
def fromDataDict (cfg : StoreConfig) (data : DataDict) (key : Option PyVal) : PyVal :=
  let obj : PyVal :=
    match cfg.dataType with
    | some (.classK name td) =>
      let dataForInit :=
        match copyOfKeyField td with
        | some f => if data.any (fun p => p.1 == f) then data else data ++ [(f, .vnone)]
        | none => data
      match constructClass name td dataForInit with
      | some o => o
      | none => .vdict data
    | _ => .vdict data
  match key with
  | some k => if isDict obj then obj else populateCopyOfKey cfg obj k
  | none => obj

/-- DocumentStore._to_data_dict with the default to_dict_fn, where td
describes the type of the stored value. -/
def toDataDict (td : TypeDesc) (v : PyVal) : DataDict := default_to_dict td v

/-- The TypeDesc behind self.data_type, used for the CopyOfKey scan of
default_to_dict on stored values. -/
def dataTdOf (cfg : StoreConfig) : TypeDesc :=
  match cfg.dataType with
  | some (.classK _ td) => td
  | _ => []

/-- Dict lookup keyed by an arbitrary equality test (CPython resolves dict
access through the == protocol of the key values). -/
def lookupBy {κ β : Type} (eqv : κ → κ → Bool) (l : List (κ × β)) (k : κ) : Option β :=
  (l.find? (fun p => eqv p.1 k)).map Prod.snd

/-- Dict assignment d[k] = v: replace the value at an existing slot keeping
its position, else append a fresh entry. -/
def dictInsert {κ β : Type} (eqv : κ → κ → Bool) (l : List (κ × β)) (k : κ) (v : β) :
    List (κ × β) :=
  if l.any (fun p => eqv p.1 k) then
    l.map (fun p => if eqv p.1 k then (p.1, v) else p)
  else l ++ [(k, v)]

/-- InMemoryDocumentStore backing state: the dict from key tuple to field
map, with the key-tuple domain kept abstract so the same model serves the
tuple-level ordering claims and the PyVal-level codec claims. -/
abbrev InMemState (κ : Type) := List (κ × DataDict)

/-- InMemoryDocumentStore.put at the storage layer. -/
def inMemPut {κ : Type} (eqv : κ → κ → Bool) (st : InMemState κ) (kt : κ) (d : DataDict) :
    InMemState κ :=
  dictInsert eqv st kt d

/-- InMemoryDocumentStore.put on a key object, composing the key codec and
record codec exactly as the source does. -/
def inMemPutK (cfg : StoreConfig) (st : InMemState (List PyVal)) (key data : PyVal) :
    InMemState (List PyVal) :=
  inMemPut pyBeqList st (getKeyTuple cfg.keyAttrs cfg.keyTd key none) (toDataDict (dataTdOf cfg) data)

/-- InMemoryDocumentStore.get on a key object: look the key tuple up and run
the field map through _from_data_dict with the queried key. -/
def inMemGetK (cfg : StoreConfig) (st : InMemState (List PyVal)) (key : PyVal) : Option PyVal :=
  (lookupBy pyBeqList st (getKeyTuple cfg.keyAttrs cfg.keyTd key none)).map
    (fun d => fromDataDict cfg d (some key))

/-- InMemoryDocumentStore.batch_get: fold get over the key set (modelled as
the iteration order list), keeping only keys whose get is not None. -/
def inMemBatchGetK (cfg : StoreConfig) (st : InMemState (List PyVal)) (keys : List PyVal) :
    List (PyVal × PyVal) :=
  keys.foldl (fun res k =>
    match inMemGetK cfg st k with
    | some v => dictInsert pyBeq res k v
    | none => res) []

/-- InMemoryDocumentStore.get_range at the storage layer: iterate the stored
key tuples sorted ascending (descending when reverse is set, which for the
duplicate-free keys of a dict coincides with the stable descending sort of
CPython), keep those within the inclusive bounds, and emit each with its
stored field map transformed by the supplied projections (the source applies
_reconstruct_key and _from_data_dict; the tuple-level claims instantiate them
with identities). -/
def inMemGetRange {κ α β : Type} (eqv : κ → κ → Bool) (le : κ → κ → Bool)
    (recon : κ → α) (fromD : κ → DataDict → β)
    (st : InMemState κ) (sT eT : κ) (rev : Bool) : List (α × β) :=
  let sortedKeys := (st.map Prod.fst).mergeSort le
  let sortedKeys := if rev then sortedKeys.reverse else sortedKeys
  (sortedKeys.filter (fun kt => le sT kt && le kt eT)).map
    (fun kt => (recon kt, fromD kt ((lookupBy eqv st kt).getD [])))

/-- InMemoryDocumentStore._match_index: project the stored field map on the
index attributes and compare the projected tuple against the target with
tuple ==. -/
def matchIndex (d : DataDict) (target : List PyVal) (idxAttrs : List String) : Bool :=
  pyBeqList (idxAttrs.map (fun a => dictGet d a)) target

/-- InMemoryDocumentStore.get_by_index: discover the index attributes from
the index key type, project the index key, and scan every stored field map
for an exact projected match; matching values are decoded without a key. -/
def inMemGetByIndex {κ : Type} (cfg : StoreConfig) (idxTy : TypeDesc) (indexKey : PyVal)
    (st : InMemState κ) : List PyVal :=
  let idxAttrs := (discoverAttrsFor idxTy).1
  let idxTuple := getKeyTuple cfg.keyAttrs idxTy indexKey (some idxAttrs)
  st.filterMap (fun p =>
    if matchIndex p.2 idxTuple idxAttrs then some (fromDataDict cfg p.2 none) else none)

/-- CPython tuple <= over an arbitrary linearly ordered component type: skip
equal heads, decide at the first difference, shorter prefixes sort first.
This is the ordering under which a dict of homogeneous key tuples is sorted
by the in-memory backend. -/
def tupLe {σ : Type} [LinearOrder σ] : List σ → List σ → Bool
  | [], _ => true
  | _ :: _, [] => false
  | a :: as, b :: bs => if a = b then tupLe as bs else decide (a ≤ b)

/-- One item of an embedded-store partition document: the encoded sort key
under "sk" and the field map under "d". -/
structure MItem where
  sk : PyVal
  d : DataDict
  deriving DecidableEq

/-- One partition document of MongoEmbeddedDocumentStore: the partition _id
and the embedded item array. -/
structure MDoc where
  id : PyVal
  items : List MItem
  deriving DecidableEq

/-- MongoEmbeddedDocumentStore._key_to_mongo_pk_query, returning the _id
value: a field map when the partition attributes align with the projected
tuple, the bare scalar for a single component, and the {"v": [...]} wrapper
otherwise. -/
def keyToMongoPkId (cfg : StoreConfig) (key : PyVal) : PyVal :=
  let vals := getPartitionKeyTuple cfg key
  if !cfg.partitionAttrs.isEmpty && cfg.partitionAttrs.length == vals.length then
    .vdict (cfg.partitionAttrs.zip vals)
  else if vals.length == 1 then vals.headD .vnone
  else .vdict [("v", .vtup vals)]

/-- MongoEmbeddedDocumentStore._get_sort_key_value: the stored "sk" encoding
of the sort tuple, mirroring the _id encoding scheme. -/
def getSortKeyValue (cfg : StoreConfig) (key : PyVal) : PyVal :=
  let vals := getSortKeyTuple cfg key
  if !cfg.sortAttrs.isEmpty && cfg.sortAttrs.length == vals.length then
    .vdict (cfg.sortAttrs.zip vals)
  else if vals.length == 1 then vals.headD .vnone
  else .vdict [("v", .vtup vals)]

/-- The positional update {"$set": {"items.$.d": d}}: replace the field map
of the first item whose sk matches the queried sort key. -/
def setFirstItem : List MItem → PyVal → DataDict → List MItem
  | [], _, _ => []
  | it :: rest, sk, d =>
    if mongoEq it.sk sk then ⟨it.sk, d⟩ :: rest else it :: setFirstItem rest sk d

/-- update_one semantics on a collection: rewrite the first document matching
the filter, reporting whether one matched. -/
def updateFirst (p : MDoc → Bool) (f : MDoc → MDoc) : List MDoc → List MDoc × Bool
  | [] => ([], false)
  | doc :: rest =>
    if p doc then (f doc :: rest, true)
    else
      let r := updateFirst p f rest
      (doc :: r.1, r.2)

/-- MongoEmbeddedDocumentStore.put: first try the positional in-place update
of the item matching (partition _id, items.sk); when no document matched,
push the item onto the partition document (creating it through upsert when
the partition document itself is absent). -/
def embPutRaw (st : List MDoc) (pk sk : PyVal) (d : DataDict) : List MDoc :=
  let upd := updateFirst
    (fun doc => mongoEq doc.id pk && doc.items.any (fun it => mongoEq it.sk sk))
    (fun doc => ⟨doc.id, setFirstItem doc.items sk d⟩) st
  if upd.2 then upd.1
  else
    let push := updateFirst (fun doc => mongoEq doc.id pk)
      (fun doc => ⟨doc.id, doc.items ++ [⟨sk, d⟩]⟩) upd.1
    if push.2 then push.1 else upd.1 ++ [⟨pk, [⟨sk, d⟩]⟩]

/-- MongoEmbeddedDocumentStore.put on a key object and value. -/
def embPut (cfg : StoreConfig) (st : List MDoc) (key data : PyVal) : List MDoc :=
  embPutRaw st (keyToMongoPkId cfg key) (getSortKeyValue cfg key)
    (toDataDict (dataTdOf cfg) data)

/-- MongoEmbeddedDocumentStore.get: find_one on (partition _id, items.sk)
with the positional projection items.$, then decode the projected item with
the queried key. -/
def embGet (cfg : StoreConfig) (st : List MDoc) (key : PyVal) : Option PyVal :=
  let pk := keyToMongoPkId cfg key
  let sk := getSortKeyValue cfg key
  match st.find? (fun doc => mongoEq doc.id pk && doc.items.any (fun it => mongoEq it.sk sk)) with
  | some doc =>
    match doc.items.find? (fun it => mongoEq it.sk sk) with
    | some it => some (fromDataDict cfg it.d (some key))
    | none => none
  | none => none

/-- MongoEmbeddedDocumentStore.batch_get: fold get over the key set, keeping
a key only when its value is truthy (the source tests if val, not whether it
is None). -/
def embBatchGet (cfg : StoreConfig) (st : List MDoc) (keys : List PyVal) :
    List (PyVal × PyVal) :=
  keys.foldl (fun res k =>
    match embGet cfg st k with
    | some v => if truthy v then dictInsert pyBeq res k v else res
    | none => res) []

/-- The chained comparison start_sk <= sk <= end_sk guarded by the
try/except TypeError of the source: an undefined comparison yields no match
instead of propagating. -/
def chainLeB (s k e : List PyVal) : Bool :=
  match pyTupLeO s k with
  | some true =>
    match pyTupLeO k e with
    | some true => true
    | _ => false
  | _ => false

/-- The reconstruction step of MongoEmbeddedDocumentStore.get_range at one
matched item: the partition tuple of the start key concatenated with the
sort-key component. In the source, sk at this point is the result of
_get_sort_key_tuple(item["sk"]) and hence always a Python tuple, so of the
isinstance branches only the final wrapping one is reachable: the whole
tuple becomes the single component (sk,). -/
def embRangeItemPair (cfg : StoreConfig) (startKey : PyVal) (item : MItem) : PyVal × PyVal :=
  let fullTuple := getPartitionKeyTuple cfg startKey ++
    [PyVal.vtup (getSortKeyTupleAux cfg [] item.sk)]
  let k := reconstructKey cfg fullTuple
  (k, fromDataDict cfg item.d (some k))

/-- The guarded in-memory sort items.sort(key=..., reverse=...) of the
source: when every pairwise comparison of the projections is defined, it is
the stable sort under that comparison (reversed comparisons under reverse,
matching the CPython reverse flag); when some comparison is undefined,
CPython raises mid-sort, the except branch gives up on ordering, and the
model keeps the input order, which agrees with the source up to a
permutation that no verified claim depends on. -/
def trySortBy {β : Type} (leO : β → β → Option Bool) (rev : Bool) (l : List β) : List β :=
  if l.all (fun a => l.all (fun b => (leO a b).isSome)) then
    l.mergeSort (fun a b => (if rev then leO b a else leO a b).getD false)
  else l

/-- MongoEmbeddedDocumentStore.get_range (the effective, second definition in
the class body): find_one on the partition _id derived from start_key, filter
the embedded items by the inclusive sort-tuple bounds, reconstruct each match
and sort in memory by the sort-key projection of the reconstructed keys. -/
def embGetRange (cfg : StoreConfig) (st : List MDoc) (startKey endKey : PyVal) (rev : Bool) :
    List (PyVal × PyVal) :=
  match st.find? (fun doc => mongoEq doc.id (keyToMongoPkId cfg startKey)) with
  | none => []
  | some doc =>
    let startSk := getSortKeyTuple cfg startKey
    let endSk := getSortKeyTuple cfg endKey
    let pre := doc.items.filterMap (fun item =>
      if chainLeB startSk (getSortKeyTupleAux cfg [] item.sk) endSk then
        some (embRangeItemPair cfg startKey item)
      else none)
    trySortBy (fun a b => pyTupLeO (getSortKeyTuple cfg a.1) (getSortKeyTuple cfg b.1)) rev pre

/-- getattr on a modelled object or dict entry lookup, used to state
properties about single fields of decoded values. -/
def getField (v : PyVal) (f : String) : Option PyVal :=
  match v with
  | .vobj _ flds => (flds.find? (fun p => p.1 == f)).map Prod.snd
  | .vdict flds => (flds.find? (fun p => p.1 == f)).map Prod.snd
  | _ => none

/-- Whether a marker is a PartitionKey or SortKey marker. -/
def isKeyMarker : Marker → Bool
  | .partitionKey _ => true
  | .sortKey _ => true
  | .copyOfKey => false

/-- A class declaration with no PartitionKey/SortKey metadata anywhere, such
as the one get_type_hints yields for bare scalar types. -/
def hasNoKeyMarkers (td : TypeDesc) : Bool :=
  td.all (fun f => f.2.all (fun m => !isKeyMarker m))

/-- The MyKey class of the test suite: user_id is the partition key, note_id
the sort key. -/
def tdMyKey : TypeDesc := [("user_id", [Marker.partitionKey 0]), ("note_id", [Marker.sortKey 0])]

/-- A resolved store over MyKey with untyped values. -/
def cfgMyKey : StoreConfig :=
  { keyAttrs := ["user_id", "note_id"], partitionAttrs := ["user_id"], sortAttrs := ["note_id"],
    keyType := some (.classK "MyKey" tdMyKey), dataType := none, keyTd := tdMyKey }

/-- The OrderedKey sort-key fields of the test suite, declared in reverse
ordinal order: suffix has ordinal 2 but is declared first, prefix has
ordinal 1 and is declared second. -/
def tdOrdered : TypeDesc := [("suffix", [Marker.sortKey 2]), ("prefix", [Marker.sortKey 1])]

/-- A one-attribute key class used for the round-trip counterexample. -/
def tdK1 : TypeDesc := [("a", [Marker.partitionKey 0])]

/-- A resolved store whose key type is the one-attribute class above. -/
def cfgK1 : StoreConfig :=
  { keyAttrs := ["a"], partitionAttrs := ["a"], sortAttrs := [],
    keyType := some (.classK "K" tdK1), dataType := none, keyTd := tdK1 }

/-- A value class carrying a CopyOfKey-marked field owner. -/
def tdNoteMirror : TypeDesc := [("title", []), ("owner", [Marker.copyOfKey])]

/-- A resolved store with a scalar key type and the mirrored value class. -/
def cfgMirror : StoreConfig :=
  { keyAttrs := [], partitionAttrs := [], sortAttrs := [],
    keyType := some .scalarK, dataType := some (.classK "Note" tdNoteMirror), keyTd := [] }

/-- A secondary-index key class over the title field. -/
def tdTitleIndex : TypeDesc := [("title", [Marker.partitionKey 0])]

/-- A store with no schema at all (scalar keys, untyped values), as used by
ad hoc callers. -/
def cfgBare : StoreConfig :=
  { keyAttrs := [], partitionAttrs := [], sortAttrs := [],
    keyType := none, dataType := none, keyTd := [] }

/-- Embedded-store fixture: the note-1 item of partition a. -/
def item6a : MItem := ⟨.vdict [("note_id", .vint 1)], [("t", .vstr "x")]⟩

/-- Embedded-store fixture: two partition documents a and b. -/
def st6 : List MDoc :=
  [⟨.vdict [("user_id", .vstr "a")], [item6a]⟩,
   ⟨.vdict [("user_id", .vstr "b")], [⟨.vdict [("note_id", .vint 1)], [("t", .vstr "z")]⟩]⟩]

/-- The MyKey (a, 1) start key. -/
def k6start : PyVal := .vobj "MyKey" [("user_id", .vstr "a"), ("note_id", .vint 1)]

/-- The MyKey (a, 2) end key. -/
def k6end : PyVal := .vobj "MyKey" [("user_id", .vstr "a"), ("note_id", .vint 2)]

/-
Theorems. Shared helper lemmas come first, then one theorem per claim (plus
its witness or counterexample where required).
-/

mutual

theorem pyBeq_refl : ∀ v, pyBeq v v = true
  | .vnone => rfl
  | .vint i => by simp [pyBeq, pyNum]
  | .vstr s => by simp [pyBeq]
  | .vbool b => by simp [pyBeq, pyNum]
  | .vdict l => by simpa [pyBeq] using pyBeqPairs_refl l
  | .vobj c l => by simpa [pyBeq] using pyBeqPairs_refl l
  | .vtup l => by simpa [pyBeq] using pyBeqList_refl l

theorem pyBeqList_refl : ∀ l, pyBeqList l l = true
  | [] => rfl
  | a :: as => by simp [pyBeqList, pyBeq_refl a, pyBeqList_refl as]

theorem pyBeqPairs_refl : ∀ l, pyBeqPairs l l = true
  | [] => rfl
  | (k, a) :: as => by simp [pyBeqPairs, pyBeq_refl a, pyBeqPairs_refl as]

end

mutual

theorem mongoEq_refl : ∀ v, mongoEq v v = true
  | .vnone => rfl
  | .vint i => by simp [mongoEq]
  | .vstr s => by simp [mongoEq]
  | .vbool b => by simp [mongoEq]
  | .vdict l => by simpa [mongoEq] using mongoEqPairs_refl l
  | .vobj c l => by simpa [mongoEq] using mongoEqPairs_refl l
  | .vtup l => by simpa [mongoEq] using mongoEqList_refl l

theorem mongoEqList_refl : ∀ l, mongoEqList l l = true
  | [] => rfl
  | a :: as => by simp [mongoEqList, mongoEq_refl a, mongoEqList_refl as]

theorem mongoEqPairs_refl : ∀ l, mongoEqPairs l l = true
  | [] => rfl
  | (k, a) :: as => by simp [mongoEqPairs, mongoEq_refl a, mongoEqPairs_refl as]

end

theorem dictInsert_idem {κ β : Type} (eqv : κ → κ → Bool) (l : List (κ × β)) (k : κ) (v : β)
    (hk : eqv k k = true) :
    dictInsert eqv (dictInsert eqv l k v) k v = dictInsert eqv l k v := by
  by_cases h : l.any (fun p => eqv p.1 k) = true
  · have hstep : dictInsert eqv l k v = l.map (fun p => if eqv p.1 k then (p.1, v) else p) := by
      unfold dictInsert; rw [if_pos h]
    have hfun : ((fun p : κ × β => eqv p.1 k) ∘ fun p => if eqv p.1 k then (p.1, v) else p)
        = (fun p : κ × β => eqv p.1 k) := by
      funext p; by_cases hp : eqv p.1 k = true <;> simp [Function.comp, hp]
    have hany : (l.map (fun p => if eqv p.1 k then (p.1, v) else p)).any
        (fun p => eqv p.1 k) = true := by
      rw [List.any_map, hfun]; exact h
    rw [hstep]
    unfold dictInsert
    rw [if_pos hany, List.map_map]
    apply List.map_congr_left
    intro p _
    by_cases hp : eqv p.1 k = true <;> simp [Function.comp, hp]
  · have h' : l.any (fun p => eqv p.1 k) = false := by simpa using h
    have hall : ∀ p ∈ l, eqv p.1 k = false := by
      intro p hp
      simpa using List.any_eq_false.mp h' p hp
    have hstep : dictInsert eqv l k v = l ++ [(k, v)] := by
      unfold dictInsert; rw [if_neg h]
    rw [hstep]
    unfold dictInsert
    have hany2 : (l ++ [(k, v)]).any (fun p => eqv p.1 k) = true := by
      rw [List.any_append]; simp [hk]
    rw [if_pos hany2, List.map_append]
    have h1 : ∀ p ∈ l, ((if eqv p.1 k then (p.1, v) else p) : κ × β) = id p := by
      intro p hp; rw [hall p hp]; simp
    rw [List.map_congr_left h1, List.map_id]
    simp [hk]

theorem lookupBy_eq_some_iff {κ β : Type} [DecidableEq κ] :
    ∀ (l : List (κ × β)) (k : κ) (d : β), (l.map Prod.fst).Nodup →
    (lookupBy (fun a b => decide (a = b)) l k = some d ↔ (k, d) ∈ l)
  | [], k, d, _ => by simp [lookupBy]
  | (k2, d2) :: rest, k, d, hnd => by
    have hnd2 : (rest.map Prod.fst).Nodup := (List.nodup_cons.mp (by simpa using hnd)).2
    have hk2 : k2 ∉ rest.map Prod.fst := (List.nodup_cons.mp (by simpa using hnd)).1
    by_cases hkk : k2 = k
    · subst hkk
      constructor
      · intro hs
        have hf : (List.find? (fun p => decide (p.1 = k2)) ((k2, d2) :: rest)) = some (k2, d2) :=
          List.find?_cons_of_pos _ (by simp)
        rw [lookupBy, hf] at hs
        simp at hs
        subst hs
        exact List.mem_cons_self _ _
      · intro hmem
        rcases List.mem_cons.mp hmem with heq | htail
        · have hd : d = d2 := congrArg Prod.snd heq
          subst hd
          rw [lookupBy, List.find?_cons_of_pos _ (by simp)]
          rfl
        · exact absurd (List.mem_map.mpr ⟨(k2, d), htail, rfl⟩) hk2
    · have hstep : lookupBy (fun a b => decide (a = b)) ((k2, d2) :: rest) k
          = lookupBy (fun a b => decide (a = b)) rest k := by
        unfold lookupBy
        rw [List.find?_cons_of_neg _ (by simpa using hkk)]
      rw [hstep, lookupBy_eq_some_iff rest k d hnd2]
      constructor
      · exact fun h => List.mem_cons_of_mem _ h
      · intro hmem
        rcases List.mem_cons.mp hmem with heq | htail
        · exact absurd (congrArg Prod.fst heq).symm hkk
        · exact htail

theorem pkPairs_eq_nil (td : TypeDesc) (h : hasNoKeyMarkers td = true) : pkPairs td = [] := by
  unfold pkPairs
  rw [List.flatMap_eq_nil_iff]
  intro f hf
  rw [List.filterMap_eq_nil_iff]
  intro m hm
  have := List.all_eq_true.mp (List.all_eq_true.mp h f hf) m hm
  cases m with
  | partitionKey o => simp [isKeyMarker] at this
  | sortKey o => rfl
  | copyOfKey => rfl

theorem skPairs_eq_nil (td : TypeDesc) (h : hasNoKeyMarkers td = true) : skPairs td = [] := by
  unfold skPairs
  rw [List.flatMap_eq_nil_iff]
  intro f hf
  rw [List.filterMap_eq_nil_iff]
  intro m hm
  have := List.all_eq_true.mp (List.all_eq_true.mp h f hf) m hm
  cases m with
  | partitionKey o => rfl
  | sortKey o => simp [isKeyMarker] at this
  | copyOfKey => rfl

/-- C7. Schema resolution is total and degrades silently: _discover_attrs_for
is a total function of the type description (the source guards its only
fallible call with try/except), and on a type carrying no PartitionKey or
SortKey marker it returns empty attribute lists rather than an error. -/
theorem c7_discover_total_empty_schema (td : TypeDesc) (h : hasNoKeyMarkers td = true) :
    discoverAttrsFor td = ([], [], []) := by
  unfold discoverAttrsFor
  rw [pkPairs_eq_nil td h, skPairs_eq_nil td h]
  simp [List.mergeSort_nil]

/-- Witness for C7 at a concrete markerless type (one plain field, one
CopyOfKey field). -/
theorem c7_discover_total_empty_schema_witness :
    hasNoKeyMarkers [("x", []), ("y", [Marker.copyOfKey])] = true
    ∧ discoverAttrsFor [("x", []), ("y", [Marker.copyOfKey])] = ([], [], []) :=
  ⟨by decide, c7_discover_total_empty_schema [("x", []), ("y", [Marker.copyOfKey])] (by decide)⟩

theorem asTuple_of_scalar (v : PyVal) (h : isScalar v = true) : asTuple v = [v] := by
  cases v <;> simp_all [isScalar, asTuple]

theorem isScalarOrTup_of_scalar (v : PyVal) (h : isScalar v = true) : isScalarOrTup v = true := by
  cases v <;> simp_all [isScalar, isScalarOrTup]

/-- C10. On the in-memory backend, get_by_index with an index key whose type
has no PartitionKey/SortKey metadata and which is a bare scalar returns the
empty list on every store state: the discovered attribute list is empty, so
every stored record projects to the empty tuple, which never equals the
1-tuple the scalar index key wraps into. -/
theorem c10_get_by_index_scalar_empty {κ : Type} (cfg : StoreConfig) (idxTy : TypeDesc)
    (indexKey : PyVal) (st : InMemState κ)
    (hty : hasNoKeyMarkers idxTy = true) (hsc : isScalar indexKey = true) :
    inMemGetByIndex cfg idxTy indexKey st = [] := by
  have hdisc : discoverAttrsFor idxTy = ([], [], []) := c7_discover_total_empty_schema idxTy hty
  have htuple : getKeyTuple cfg.keyAttrs idxTy indexKey (some []) = [indexKey] := by
    unfold getKeyTuple
    rw [hdisc]
    simp [isScalarOrTup_of_scalar indexKey hsc, asTuple_of_scalar indexKey hsc]
  unfold inMemGetByIndex
  rw [hdisc]
  dsimp only
  rw [htuple, List.filterMap_eq_nil_iff]
  intro p _
  simp [matchIndex, pyBeqList]

/-- Witness for C10: a store holding one record, queried with the bare string
index key. -/
theorem c10_get_by_index_scalar_empty_witness :
    hasNoKeyMarkers ([] : TypeDesc) = true ∧ isScalar (.vstr "personal") = true
    ∧ inMemGetByIndex cfgBare [] (.vstr "personal")
        ([([PyVal.vstr "u"], [("category", .vstr "personal")])] : InMemState (List PyVal)) = [] :=
  ⟨by decide, by decide,
    c10_get_by_index_scalar_empty cfgBare [] (.vstr "personal")
      [([PyVal.vstr "u"], [("category", .vstr "personal")])] (by decide) (by decide)⟩

/-- C8. Missing and empty fields are indistinguishable: a value with a falsy
field and the same value with that field absent encode to the same field map
under default_to_dict, hence putting either yields the same in-memory store
state (and therefore the same subsequent reads). -/
theorem c8_falsy_absent_indistinguishable (td : TypeDesc) (cname f : String) (x : PyVal)
    (l1 l2 : List (String × PyVal)) (hx : truthy x = false) :
    default_to_dict td (.vobj cname (l1 ++ (f, x) :: l2))
      = default_to_dict td (.vobj cname (l1 ++ l2))
    ∧ ∀ (st : InMemState (List PyVal)) (kt : List PyVal),
      inMemPut pyBeqList st kt (toDataDict td (.vobj cname (l1 ++ (f, x) :: l2)))
        = inMemPut pyBeqList st kt (toDataDict td (.vobj cname (l1 ++ l2))) := by
  have hdict : default_to_dict td (.vobj cname (l1 ++ (f, x) :: l2))
      = default_to_dict td (.vobj cname (l1 ++ l2)) := by
    simp only [default_to_dict]
    rw [List.filter_append, List.filter_append]
    congr 1
    rw [List.filter_cons]
    simp [hx]
  exact ⟨hdict, fun st kt => by unfold inMemPut toDataDict; rw [hdict]⟩

/-- Witness for C8: a note with an empty content field versus the same note
without it. -/
theorem c8_falsy_absent_indistinguishable_witness :
    truthy (.vstr "") = false
    ∧ default_to_dict [] (.vobj "MyNote" [("title", .vstr "T"), ("content", .vstr "")])
        = default_to_dict [] (.vobj "MyNote" [("title", .vstr "T")]) :=
  ⟨by decide,
    (c8_falsy_absent_indistinguishable [] "MyNote" "content" (.vstr "")
      [("title", .vstr "T")] [] (by decide)).1⟩

theorem pairwiseOfMem {α : Type} {R : α → α → Prop} :
    ∀ (l : List α), (∀ a ∈ l, ∀ b ∈ l, R a b) → l.Pairwise R
  | [], _ => List.Pairwise.nil
  | a :: as, h => by
    constructor
    · intro b hb
      exact h a (List.mem_cons_self a as) b (List.mem_cons_of_mem a hb)
    · exact pairwiseOfMem as (fun x hx y hy =>
        h x (List.mem_cons_of_mem a hx) y (List.mem_cons_of_mem a hy))

theorem mergeSort_filter_stable {α : Type} (le : α → α → Bool) (p : α → Bool)
    (htrans : ∀ a b c, le a b = true → le b c = true → le a c = true)
    (htotal : ∀ a b, (le a b || le b a) = true)
    (hp : ∀ a b, p a = true → p b = true → le a b = true) (l : List α) :
    (l.mergeSort le).filter p = l.filter p := by
  have hpair : List.Pairwise (fun a b => le a b = true) (l.filter p) :=
    pairwiseOfMem _ (fun a ha b hb =>
      hp a b (List.mem_filter.mp ha).2 (List.mem_filter.mp hb).2)
  have hsub2 : (l.filter p).Sublist (l.mergeSort le) :=
    List.sublist_mergeSort htrans htotal hpair (List.filter_sublist l)
  have h4 := List.Sublist.filter p hsub2
  have hfun : (fun a => p a && p a) = p := by funext a; exact Bool.and_self (p a)
  rw [List.filter_filter, hfun] at h4
  have hlen : (l.filter p).length = ((l.mergeSort le).filter p).length := by
    rw [← List.countP_eq_length_filter, ← List.countP_eq_length_filter]
    exact ((List.mergeSort_perm l le).countP_eq p).symm
  exact (h4.eq_of_length hlen).symm

theorem ordinalLe_trans (a b c : Int × String) (h1 : ordinalLe a b = true)
    (h2 : ordinalLe b c = true) : ordinalLe a c = true := by
  simp [ordinalLe] at *
  exact le_trans h1 h2

theorem ordinalLe_total (a b : Int × String) : (ordinalLe a b || ordinalLe b a) = true := by
  simp [ordinalLe]
  exact le_total a.1 b.1

/-- C4. Schema resolution orders attributes by ordinal ascending with ties
broken by field declaration order: the resolved partition and sort lists are
the stable ordinal sorts of the collected (ordinal, name) pairs, the sorted
lists are pairwise ordered by ordinal, elements of equal ordinal keep their
declaration order (the filter at each ordinal is unchanged), and for the
OrderedKey scenario (suffix with ordinal 2 declared before prefix with
ordinal 1) the resolved tuple orders by prefix first, making
(prefix=5, suffix=z) strictly below (prefix=10, suffix=b). -/
theorem c4_schema_ordinal_ordering :
    (∀ td : TypeDesc,
      (discoverAttrsFor td).2.1 = ((pkPairs td).mergeSort ordinalLe).map Prod.snd
      ∧ (discoverAttrsFor td).2.2 = ((skPairs td).mergeSort ordinalLe).map Prod.snd
      ∧ (discoverAttrsFor td).1 = (discoverAttrsFor td).2.1 ++ (discoverAttrsFor td).2.2
      ∧ List.Pairwise (fun a b : Int × String => a.1 ≤ b.1) ((pkPairs td).mergeSort ordinalLe)
      ∧ List.Pairwise (fun a b : Int × String => a.1 ≤ b.1) ((skPairs td).mergeSort ordinalLe)
      ∧ ∀ o : Int,
          ((pkPairs td).mergeSort ordinalLe).filter (fun x => x.1 == o)
            = (pkPairs td).filter (fun x => x.1 == o)
          ∧ ((skPairs td).mergeSort ordinalLe).filter (fun x => x.1 == o)
            = (skPairs td).filter (fun x => x.1 == o))
    ∧ discoverAttrsFor tdOrdered = (["prefix", "suffix"], [], ["prefix", "suffix"])
    ∧ pyTupLtO
        (getKeyTuple [] tdOrdered (.vobj "OrderedKey" [("suffix", .vstr "z"), ("prefix", .vint 5)]) none)
        (getKeyTuple [] tdOrdered (.vobj "OrderedKey" [("suffix", .vstr "b"), ("prefix", .vint 10)]) none)
        = some true := by
  refine ⟨fun td => ⟨rfl, rfl, rfl, ?_, ?_, fun o => ⟨?_, ?_⟩⟩, ?_, ?_⟩
  · exact (List.sorted_mergeSort ordinalLe_trans ordinalLe_total (pkPairs td)).imp
      (fun h => by simpa [ordinalLe] using h)
  · exact (List.sorted_mergeSort ordinalLe_trans ordinalLe_total (skPairs td)).imp
      (fun h => by simpa [ordinalLe] using h)
  · exact mergeSort_filter_stable ordinalLe (fun x => x.1 == o) ordinalLe_trans ordinalLe_total
      (fun a b ha hb => by
        simp [ordinalLe]
        have h1 : a.1 = o := by simpa using ha
        have h2 : b.1 = o := by simpa using hb
        rw [h1, h2]) (pkPairs td)
  · exact mergeSort_filter_stable ordinalLe (fun x => x.1 == o) ordinalLe_trans ordinalLe_total
      (fun a b ha hb => by
        simp [ordinalLe]
        have h1 : a.1 = o := by simpa using ha
        have h2 : b.1 = o := by simpa using hb
        rw [h1, h2]) (skPairs td)
  · simp [discoverAttrsFor, tdOrdered, pkPairs, skPairs, ordinalLe, List.mergeSort, List.merge]
  · have hdisc : discoverAttrsFor tdOrdered = (["prefix", "suffix"], [], ["prefix", "suffix"]) := by
      simp [discoverAttrsFor, tdOrdered, pkPairs, skPairs, ordinalLe, List.mergeSort, List.merge]
    have h1 : getKeyTuple [] tdOrdered
        (.vobj "OrderedKey" [("suffix", .vstr "z"), ("prefix", .vint 5)]) none
        = [.vint 5, .vstr "z"] := by
      unfold getKeyTuple
      rw [hdisc]
      simp [isScalarOrTup, default_to_dict, truthy, copyOfKeyFields, tdOrdered, dictGet,
        List.find?]
    have h2 : getKeyTuple [] tdOrdered
        (.vobj "OrderedKey" [("suffix", .vstr "b"), ("prefix", .vint 10)]) none
        = [.vint 10, .vstr "b"] := by
      unfold getKeyTuple
      rw [hdisc]
      simp [isScalarOrTup, default_to_dict, truthy, copyOfKeyFields, tdOrdered, dictGet,
        List.find?]
    rw [h1, h2]
    decide

/-- Counterexample to C1 as stated: the store is fully resolved over the
one-attribute key class K, but the key with the falsy component a = 0 does
not survive the round trip, because default_to_dict drops falsy fields and
the projection then reads None for the attribute. -/
theorem c1_roundtrip_counterexample :
    reconstructKey cfgK1
        (getKeyTuple cfgK1.keyAttrs cfgK1.keyTd (.vobj "K" [("a", .vint 0)]) none)
      ≠ .vobj "K" [("a", .vint 0)] := by decide

theorem default_to_dict_all_truthy (td : TypeDesc) (name : String)
    (flds : List (String × PyVal)) (hcopy : copyOfKeyFields td = [])
    (htruthy : ∀ p ∈ flds, truthy p.2 = true)
    (hpriv : ∀ p ∈ flds, startsWithUnderscore p.1 = false) :
    default_to_dict td (.vobj name flds) = flds := by
  simp only [default_to_dict]
  rw [List.filter_eq_self]
  intro p hp
  rw [htruthy p hp, hpriv p hp, hcopy]
  rfl

theorem foldl_dictInsertS_of_nodup :
    ∀ (ps acc : DataDict), (∀ p ∈ ps, ∀ q ∈ acc, q.1 ≠ p.1) → (ps.map Prod.fst).Nodup →
    ps.foldl (fun d p => dictInsertS d p.1 p.2) acc = acc ++ ps
  | [], acc, _, _ => by simp
  | p :: rest, acc, hdisj, hnd => by
    have hany : acc.any (fun q => q.1 == p.1) = false := by
      rw [List.any_eq_false]
      intro q hq
      simp only [beq_iff_eq]
      exact hdisj p (List.mem_cons_self p rest) q hq
    have hstep : dictInsertS acc p.1 p.2 = acc ++ [(p.1, p.2)] := by
      unfold dictInsertS
      rw [if_neg (by simp [hany])]
    have hnd2 : (rest.map Prod.fst).Nodup := (List.nodup_cons.mp (by simpa using hnd)).2
    have hhead : p.1 ∉ rest.map Prod.fst := (List.nodup_cons.mp (by simpa using hnd)).1
    have hdisj2 : ∀ r ∈ rest, ∀ q ∈ acc ++ [(p.1, p.2)], q.1 ≠ r.1 := by
      intro r hr q hq
      rcases List.mem_append.mp hq with hq1 | hq2
      · exact hdisj r (List.mem_cons_of_mem p hr) q hq1
      · have : q = (p.1, p.2) := List.mem_singleton.mp hq2
        subst this
        intro hcontra
        exact hhead (List.mem_map.mpr ⟨r, hr, hcontra.symm⟩)
    calc (p :: rest).foldl (fun d p => dictInsertS d p.1 p.2) acc
        = rest.foldl (fun d p => dictInsertS d p.1 p.2) (acc ++ [(p.1, p.2)]) := by
          rw [List.foldl_cons, hstep]
      _ = (acc ++ [(p.1, p.2)]) ++ rest := foldl_dictInsertS_of_nodup rest _ hdisj2 hnd2
      _ = acc ++ p :: rest := by simp

theorem dictGet_map_self (g : String → PyVal) :
    ∀ (l : List String) (x : String), x ∈ l →
    dictGet (l.map (fun a => (a, g a))) x = g x
  | [], x, hx => absurd hx (List.not_mem_nil x)
  | a :: as, x, hx => by
    by_cases hax : a = x
    · subst hax
      unfold dictGet
      rw [List.map_cons, List.find?_cons_of_pos _ (by simp)]
    · have hx2 : x ∈ as := by
        rcases List.mem_cons.mp hx with h | h
        · exact absurd h.symm hax
        · exact h
      unfold dictGet
      rw [List.map_cons, List.find?_cons_of_neg _ (by simpa using hax)]
      exact dictGet_map_self g as x hx2

theorem dictGet_self :
    ∀ (flds : List (String × PyVal)), (flds.map Prod.fst).Nodup →
    ∀ p ∈ flds, dictGet flds p.1 = p.2
  | [], _, p, hp => absurd hp (List.not_mem_nil p)
  | q :: rest, hnd, p, hp => by
    have hnd2 : (rest.map Prod.fst).Nodup := (List.nodup_cons.mp (by simpa using hnd)).2
    have hhead : q.1 ∉ rest.map Prod.fst := (List.nodup_cons.mp (by simpa using hnd)).1
    rcases List.mem_cons.mp hp with h | h
    · subst h
      unfold dictGet
      rw [List.find?_cons_of_pos _ (by simp)]
    · by_cases hq : q.1 = p.1
      · exact absurd (List.mem_map.mpr ⟨p, h, hq.symm⟩) hhead
      · unfold dictGet
        rw [List.find?_cons_of_neg _ (by simpa using hq)]
        exact dictGet_self rest hnd2 p h

/-- C1 amended. Key round-trip law restricted to truthy components: for a
resolved class key type whose declared fields are exactly the key attributes,
carry no CopyOfKey marker and no leading underscore, reconstructing a key
from its projected tuple gives back an equal key whenever every component
value is truthy. The counterexample above shows the restriction is necessary:
falsy components are dropped by the record encoder and come back as None. -/
theorem c1_roundtrip_truthy (cfg : StoreConfig) (name : String) (td : TypeDesc)
    (flds : List (String × PyVal))
    (hkt : cfg.keyType = some (.classK name td))
    (hktd : cfg.keyTd = td)
    (hres : cfg.keyAttrs = (discoverAttrsFor td).1)
    (hperm : cfg.keyAttrs.Perm (td.map Prod.fst))
    (hnd : (td.map Prod.fst).Nodup)
    (hcopy : copyOfKeyFields td = [])
    (hflds : flds.map Prod.fst = td.map Prod.fst)
    (htruthy : ∀ p ∈ flds, truthy p.2 = true)
    (hpriv : ∀ p ∈ flds, startsWithUnderscore p.1 = false) :
    reconstructKey cfg (getKeyTuple cfg.keyAttrs cfg.keyTd (.vobj name flds) none)
      = .vobj name flds := by
  have hkand : cfg.keyAttrs.Nodup := (hperm.nodup_iff).mpr hnd
  have hfnd : (flds.map Prod.fst).Nodup := by rw [hflds]; exact hnd
  have heff2 : (if cfg.keyAttrs.isEmpty then (discoverAttrsFor cfg.keyTd).1 else cfg.keyAttrs)
      = cfg.keyAttrs := by
    by_cases h : cfg.keyAttrs.isEmpty = true
    · rw [if_pos h, hktd, ← hres]
    · rw [if_neg h]
  have htuple : getKeyTuple cfg.keyAttrs cfg.keyTd (.vobj name flds) none
      = cfg.keyAttrs.map (fun a => dictGet flds a) := by
    show (if cfg.keyAttrs.isEmpty then (discoverAttrsFor cfg.keyTd).1 else cfg.keyAttrs).map
        (fun a => dictGet (default_to_dict cfg.keyTd (.vobj name flds)) a)
      = cfg.keyAttrs.map (fun a => dictGet flds a)
    rw [heff2,
      default_to_dict_all_truthy cfg.keyTd name flds (by rw [hktd]; exact hcopy) htruthy hpriv]
  rw [htuple]
  have hzip : cfg.keyAttrs.zip (cfg.keyAttrs.map (fun a => dictGet flds a))
      = cfg.keyAttrs.map (fun a => (a, dictGet flds a)) := by
    have h1 := List.zip_map' id (fun a => dictGet flds a) cfg.keyAttrs
    rwa [List.map_id] at h1
  have hpairsnd : ((cfg.keyAttrs.map (fun a => (a, dictGet flds a))).map Prod.fst).Nodup := by
    have hcomp : (Prod.fst ∘ fun a : String => (a, dictGet flds a)) = id := by
      funext a; rfl
    rw [List.map_map, hcomp, List.map_id]
    exact hkand
  have hkwargs : (cfg.keyAttrs.zip (cfg.keyAttrs.map (fun a => dictGet flds a))).foldl
      (fun d p => dictInsertS d p.1 p.2) []
      = cfg.keyAttrs.map (fun a => (a, dictGet flds a)) := by
    rw [hzip]
    have := foldl_dictInsertS_of_nodup (cfg.keyAttrs.map (fun a => (a, dictGet flds a))) []
      (by intro p _ q hq; exact absurd hq (List.not_mem_nil q)) hpairsnd
    simpa using this
  have hmemka : ∀ x, x ∈ td.map Prod.fst ↔ x ∈ cfg.keyAttrs := fun x => (hperm.mem_iff).symm
  have hcond : constructClass name td (cfg.keyAttrs.map (fun a => (a, dictGet flds a)))
      = some (.vobj name (td.map (fun f =>
          (f.1, dictGet (cfg.keyAttrs.map (fun a => (a, dictGet flds a))) f.1)))) := by
    unfold constructClass
    rw [if_pos]
    rw [Bool.and_eq_true]
    constructor
    · rw [List.all_eq_true]
      intro f hf
      rw [List.any_eq_true]
      refine ⟨(f.1, dictGet flds f.1), List.mem_map.mpr ⟨f.1, ?_, rfl⟩, by simp⟩
      exact (hmemka f.1).mp (List.mem_map.mpr ⟨f, hf, rfl⟩)
    · rw [List.all_eq_true]
      intro p hp
      rw [List.any_eq_true]
      rcases List.mem_map.mp hp with ⟨a, ha, rfl⟩
      have : a ∈ td.map Prod.fst := (hmemka a).mpr ha
      rcases List.mem_map.mp this with ⟨f, hf, rfl⟩
      exact ⟨f, hf, by simp⟩
  have hgv : ∀ f ∈ td, dictGet (cfg.keyAttrs.map (fun a => (a, dictGet flds a))) f.1
      = dictGet flds f.1 := by
    intro f hf
    apply dictGet_map_self
    exact (hmemka f.1).mp (List.mem_map.mpr ⟨f, hf, rfl⟩)
  have hfinal : td.map (fun f =>
      (f.1, dictGet (cfg.keyAttrs.map (fun a => (a, dictGet flds a))) f.1)) = flds := by
    rw [List.map_congr_left (fun f hf => by rw [hgv f hf])]
    have h1 : td.map (fun f => ((f.1 : String), dictGet flds f.1))
        = (td.map Prod.fst).map (fun x => (x, dictGet flds x)) := by
      rw [List.map_map]
      rfl
    rw [h1, ← hflds, List.map_map]
    have h2 : ∀ p ∈ flds, ((fun x => (x, dictGet flds x)) ∘ Prod.fst) p = id p := by
      intro p hp
      simp [Function.comp]
      rw [dictGet_self flds hfnd p hp]
    rw [List.map_congr_left h2, List.map_id]
  unfold reconstructKey
  rw [hkt]
  dsimp only
  rw [hkwargs, hcond]
  dsimp only
  rw [hfinal]

/-- Witness for the amended C1 at the MyKey store with truthy components. -/
theorem c1_roundtrip_truthy_witness :
    reconstructKey cfgMyKey
        (getKeyTuple cfgMyKey.keyAttrs cfgMyKey.keyTd
          (.vobj "MyKey" [("user_id", .vstr "alice"), ("note_id", .vint 123)]) none)
      = .vobj "MyKey" [("user_id", .vstr "alice"), ("note_id", .vint 123)] :=
  c1_roundtrip_truthy cfgMyKey "MyKey" tdMyKey
    [("user_id", .vstr "alice"), ("note_id", .vint 123)]
    rfl rfl
    (by simp [cfgMyKey, discoverAttrsFor, pkPairs, skPairs, tdMyKey, List.mergeSort, List.merge])
    (by decide) (by decide) (by decide) rfl (by decide) (by decide)

theorem updateFirst_fst_of_false (p : MDoc → Bool) (f : MDoc → MDoc) :
    ∀ st : List MDoc, (updateFirst p f st).2 = false → (updateFirst p f st).1 = st
  | [], _ => rfl
  | doc :: rest, h => by
    by_cases hd : p doc = true
    · rw [updateFirst, if_pos hd] at h
      cases h
    · rw [updateFirst, if_neg hd] at h
      have h2 : (updateFirst p f rest).2 = false := h
      show (updateFirst p f (doc :: rest)).1 = doc :: rest
      rw [updateFirst, if_neg hd]
      show doc :: (updateFirst p f rest).1 = doc :: rest
      rw [updateFirst_fst_of_false p f rest h2]

theorem updateFirst_all_false (p : MDoc → Bool) (f : MDoc → MDoc) :
    ∀ st : List MDoc, (updateFirst p f st).2 = false → ∀ doc ∈ st, p doc = false
  | [], _, doc, hd => absurd hd (List.not_mem_nil doc)
  | d0 :: rest, h, doc, hd => by
    by_cases h0 : p d0 = true
    · rw [updateFirst, if_pos h0] at h
      cases h
    · rw [updateFirst, if_neg h0] at h
      have h2 : (updateFirst p f rest).2 = false := h
      rcases List.mem_cons.mp hd with rfl | htail
      · simpa using h0
      · exact updateFirst_all_false p f rest h2 doc htail

theorem updateFirst_concat (p : MDoc → Bool) (f : MDoc → MDoc) (doc : MDoc) :
    ∀ (l1 : List MDoc) (l2 : List MDoc), (∀ x ∈ l1, p x = false) → p doc = true →
    updateFirst p f (l1 ++ doc :: l2) = (l1 ++ f doc :: l2, true)
  | [], l2, _, hdoc => by
    rw [List.nil_append, updateFirst, if_pos hdoc]
    rfl
  | x :: l1, l2, hl1, hdoc => by
    have hx : p x = false := hl1 x (List.mem_cons_self x l1)
    rw [List.cons_append, updateFirst, if_neg (by simp [hx])]
    rw [updateFirst_concat p f doc l1 l2
      (fun y hy => hl1 y (List.mem_cons_of_mem x hy)) hdoc]
    rfl

theorem updateFirst_true_decomp (p : MDoc → Bool) (f : MDoc → MDoc) :
    ∀ st : List MDoc, (updateFirst p f st).2 = true →
    ∃ l1 doc l2, st = l1 ++ doc :: l2 ∧ (∀ x ∈ l1, p x = false) ∧ p doc = true
      ∧ (updateFirst p f st).1 = l1 ++ f doc :: l2
  | [], h => by cases h
  | d0 :: rest, h => by
    by_cases h0 : p d0 = true
    · refine ⟨[], d0, rest, by simp, by simp, h0, ?_⟩
      rw [updateFirst, if_pos h0]
      rfl
    · rw [updateFirst, if_neg h0] at h
      have h2 : (updateFirst p f rest).2 = true := h
      obtain ⟨l1, doc, l2, hst, hl1, hdoc, hres⟩ := updateFirst_true_decomp p f rest h2
      refine ⟨d0 :: l1, doc, l2, by rw [List.cons_append, ← hst], ?_, hdoc, ?_⟩
      · intro x hx
        rcases List.mem_cons.mp hx with rfl | htail
        · simpa using h0
        · exact hl1 x htail
      · show (updateFirst p f (d0 :: rest)).1 = (d0 :: l1) ++ f doc :: l2
        rw [updateFirst, if_neg h0]
        show d0 :: (updateFirst p f rest).1 = (d0 :: l1) ++ f doc :: l2
        rw [hres, List.cons_append]

theorem setFirstItem_idem (sk : PyVal) (d : DataDict) :
    ∀ its : List MItem, setFirstItem (setFirstItem its sk d) sk d = setFirstItem its sk d
  | [] => rfl
  | it :: rest => by
    by_cases h : mongoEq it.sk sk = true
    · rw [setFirstItem, if_pos h, setFirstItem, if_pos h]
    · rw [setFirstItem, if_neg h, setFirstItem, if_neg h, setFirstItem_idem sk d rest]

theorem setFirstItem_any (sk sk2 : PyVal) (d : DataDict) :
    ∀ its : List MItem, (setFirstItem its sk d).any (fun it => mongoEq it.sk sk2)
      = its.any (fun it => mongoEq it.sk sk2)
  | [] => rfl
  | it :: rest => by
    by_cases h : mongoEq it.sk sk = true
    · rw [setFirstItem, if_pos h]
      simp
    · rw [setFirstItem, if_neg h]
      simp [setFirstItem_any sk sk2 d rest]

theorem setFirstItem_append_no_match (sk : PyVal) (d : DataDict) :
    ∀ (l1 l2 : List MItem), (∀ it ∈ l1, mongoEq it.sk sk = false) →
    setFirstItem (l1 ++ l2) sk d = l1 ++ setFirstItem l2 sk d
  | [], l2, _ => by simp
  | it :: l1, l2, h => by
    have hit : mongoEq it.sk sk = false := h it (List.mem_cons_self it l1)
    rw [List.cons_append, setFirstItem, if_neg (by simp [hit]), List.cons_append,
      setFirstItem_append_no_match sk d l1 l2 (fun y hy => h y (List.mem_cons_of_mem it hy))]

theorem twoPhase_idem (P Q : MDoc → Bool) (F G : MDoc → MDoc) (newdoc : MDoc)
    (step : List MDoc → List MDoc)
    (hQP : ∀ x, Q x = false → P x = false)
    (hPF : ∀ x, P x = true → P (F x) = true)
    (hFF : ∀ x, F (F x) = F x)
    (hPG : ∀ x, Q x = true → P x = false → P (G x) = true)
    (hFG : ∀ x, Q x = true → P x = false → F (G x) = G x)
    (hPnew : P newdoc = true)
    (hFnew : F newdoc = newdoc)
    (hstep : ∀ s, step s =
      (if (updateFirst P F s).2 then (updateFirst P F s).1
       else
         if (updateFirst Q G (updateFirst P F s).1).2 then
           (updateFirst Q G (updateFirst P F s).1).1
         else (updateFirst P F s).1 ++ [newdoc]))
    (st : List MDoc) : step (step st) = step st := by
  by_cases h1 : (updateFirst P F st).2 = true
  · obtain ⟨l1, doc, l2, hst, hl1, hdoc, hres⟩ := updateFirst_true_decomp P F st h1
    have hfirst : step st = l1 ++ F doc :: l2 := by
      rw [hstep st, if_pos h1, hres]
    have hupd2 : updateFirst P F (l1 ++ F doc :: l2) = (l1 ++ F (F doc) :: l2, true) :=
      updateFirst_concat P F (F doc) l1 l2 hl1 (hPF doc hdoc)
    rw [hfirst, hstep, hupd2]
    simp [hFF doc]
  · have h1fst : (updateFirst P F st).1 = st :=
      updateFirst_fst_of_false P F st (by simpa using h1)
    have hallP : ∀ x ∈ st, P x = false :=
      updateFirst_all_false P F st (by simpa using h1)
    by_cases h2 : (updateFirst Q G st).2 = true
    · obtain ⟨l1, doc, l2, hst, hl1Q, hdocQ, hres2⟩ := updateFirst_true_decomp Q G st h2
      have hPdocF : P doc = false := by
        apply hallP
        rw [hst]
        exact List.mem_append.mpr (Or.inr (List.mem_cons_self doc l2))
      have hfirst : step st = l1 ++ G doc :: l2 := by
        rw [hstep st, if_neg h1, h1fst, if_pos h2, hres2]
      have hl1P : ∀ x ∈ l1, P x = false := fun x hx => hQP x (hl1Q x hx)
      have hupd2 : updateFirst P F (l1 ++ G doc :: l2) = (l1 ++ F (G doc) :: l2, true) :=
        updateFirst_concat P F (G doc) l1 l2 hl1P (hPG doc hdocQ hPdocF)
      rw [hfirst, hstep, hupd2]
      simp [hFG doc hdocQ hPdocF]
    · have hfirst : step st = st ++ [newdoc] := by
        rw [hstep st, if_neg h1, h1fst, if_neg h2]
      have hupd2 : updateFirst P F (st ++ newdoc :: []) = (st ++ F newdoc :: [], true) :=
        updateFirst_concat P F newdoc st [] hallP hPnew
      rw [hfirst, hstep, hupd2]
      simp [hFnew]

theorem embPutRaw_idem (st : List MDoc) (pk sk : PyVal) (d : DataDict) :
    embPutRaw (embPutRaw st pk sk d) pk sk d = embPutRaw st pk sk d := by
  apply twoPhase_idem
    (fun doc => mongoEq doc.id pk && doc.items.any (fun it => mongoEq it.sk sk))
    (fun doc => mongoEq doc.id pk)
    (fun doc => ⟨doc.id, setFirstItem doc.items sk d⟩)
    (fun doc => ⟨doc.id, doc.items ++ [⟨sk, d⟩]⟩)
    ⟨pk, [⟨sk, d⟩]⟩
    (fun s => embPutRaw s pk sk d)
  · intro x hx
    simp [hx]
  · intro x hx
    dsimp only
    rw [setFirstItem_any]
    exact hx
  · intro x
    dsimp only
    rw [setFirstItem_idem]
  · intro x hQ hP
    dsimp only at hQ hP ⊢
    rw [hQ] at hP ⊢
    simp only [Bool.true_and] at hP ⊢
    rw [List.any_append]
    simp [mongoEq_refl]
  · intro x hQ hP
    dsimp only at hQ hP ⊢
    rw [hQ] at hP
    simp only [Bool.true_and] at hP
    have hall : ∀ it ∈ x.items, mongoEq it.sk sk = false := by
      intro it hit
      simpa using List.any_eq_false.mp hP it hit
    rw [setFirstItem_append_no_match sk d x.items [⟨sk, d⟩] hall]
    rw [setFirstItem, if_pos (mongoEq_refl sk)]
  · dsimp only
    simp [mongoEq_refl]
  · dsimp only
    rw [setFirstItem, if_pos (mongoEq_refl sk)]
  · intro s
    rfl

/-- C3. Upsert idempotence: putting the same key and value twice leaves the
store state identical to a single put, on the in-memory backend (dict
assignment of the same encoded record) and on the embedded backend (the
second put always takes the in-place positional update path and rewrites the
same item with the same field map). -/
theorem c3_put_idempotent :
    (∀ (cfg : StoreConfig) (st : InMemState (List PyVal)) (key data : PyVal),
      inMemPutK cfg (inMemPutK cfg st key data) key data = inMemPutK cfg st key data)
    ∧ (∀ (cfg : StoreConfig) (st : List MDoc) (key data : PyVal),
      embPut cfg (embPut cfg st key data) key data = embPut cfg st key data) := by
  constructor
  · intro cfg st key data
    unfold inMemPutK inMemPut
    exact dictInsert_idem pyBeqList st _ _ (pyBeqList_refl _)
  · intro cfg st key data
    unfold embPut
    exact embPutRaw_idem st _ _ _

theorem batchFold_filterMap (get : PyVal → Option PyVal) :
    ∀ (keys : List PyVal) (acc : List (PyVal × PyVal)),
    (∀ k ∈ keys, ∀ q ∈ acc, pyBeq q.1 k = false) →
    List.Pairwise (fun a b => pyBeq a b = false) keys →
    keys.foldl (fun res k =>
        match get k with
        | some v => dictInsert pyBeq res k v
        | none => res) acc
      = acc ++ keys.filterMap (fun k => (get k).map (fun v => (k, v)))
  | [], acc, _, _ => by simp
  | k :: rest, acc, hdisj, hpw => by
    have hpwt : List.Pairwise (fun a b => pyBeq a b = false) rest := hpw.of_cons
    have hhead : ∀ r ∈ rest, pyBeq k r = false :=
      fun r hr => List.rel_of_pairwise_cons hpw hr
    cases hg : get k with
    | none =>
      simp only [List.foldl_cons, List.filterMap_cons, hg]
      exact batchFold_filterMap get rest acc
        (fun r hr q hq => hdisj r (List.mem_cons_of_mem k hr) q hq) hpwt
    | some v =>
      have hnomatch : acc.any (fun p => pyBeq p.1 k) = false := by
        rw [List.any_eq_false]
        intro q hq
        simp [hdisj k (List.mem_cons_self k rest) q hq]
      have hins : dictInsert pyBeq acc k v = acc ++ [(k, v)] := by
        unfold dictInsert
        rw [if_neg (by simp [hnomatch])]
      have hdisj2 : ∀ r ∈ rest, ∀ q ∈ acc ++ [(k, v)], pyBeq q.1 r = false := by
        intro r hr q hq
        rcases List.mem_append.mp hq with hq1 | hq2
        · exact hdisj r (List.mem_cons_of_mem k hr) q hq1
        · have : q = (k, v) := List.mem_singleton.mp hq2
          subst this
          exact hhead r hr
      simp only [List.foldl_cons, List.filterMap_cons, hg]
      rw [hins, batchFold_filterMap get rest (acc ++ [(k, v)]) hdisj2 hpwt]
      simp

theorem embBatchGet_plain_fold (cfg : StoreConfig) (st : List MDoc) :
    ∀ (keys : List PyVal) (acc : List (PyVal × PyVal)),
    keys.foldl (fun res k =>
        match embGet cfg st k with
        | some v => if truthy v then dictInsert pyBeq res k v else res
        | none => res) acc
      = keys.foldl (fun res k =>
        match (match embGet cfg st k with
               | some v => if truthy v then some v else none
               | none => none) with
        | some v => dictInsert pyBeq res k v
        | none => res) acc
  | [], acc => rfl
  | k :: rest, acc => by
    rw [List.foldl_cons, List.foldl_cons]
    have hstep : (match embGet cfg st k with
        | some v => if truthy v then dictInsert pyBeq acc k v else acc
        | none => acc)
        = (match (match embGet cfg st k with
               | some v => if truthy v then some v else none
               | none => none) with
        | some v => dictInsert pyBeq acc k v
        | none => acc) := by
      cases hg : embGet cfg st k with
      | none => rfl
      | some v =>
        by_cases ht : truthy v = true
        · simp [ht]
        · simp [ht]
    rw [hstep]
    exact embBatchGet_plain_fold cfg st rest _

/-- Counterexample to C5 as stated: on the embedded backend a stored record
decoding to a falsy value (here the empty dict) is present for get but is
dropped by batch_get, because the source filters with the truthiness test
if val rather than if val is not None. -/
theorem c5_batch_point_counterexample :
    embGet cfgBare [⟨.vstr "k1", [⟨.vdict [("v", .vtup [])], []⟩]⟩] (.vstr "k1")
      = some (.vdict [])
    ∧ embBatchGet cfgBare [⟨.vstr "k1", [⟨.vdict [("v", .vtup [])], []⟩]⟩] [.vstr "k1"] = [] :=
  ⟨rfl, rfl⟩

/-- C5 amended. Batch/point equivalence: on the in-memory backend batch_get
returns exactly the association of each distinct requested key with its
present get result, absent keys omitted and never mapped to null; on the
embedded backend the same holds provided every present value is truthy (the
counterexample above shows present falsy values are dropped there). -/
theorem c5_batch_point_equivalence :
    (∀ (cfg : StoreConfig) (st : InMemState (List PyVal)) (keys : List PyVal),
      List.Pairwise (fun a b => pyBeq a b = false) keys →
      inMemBatchGetK cfg st keys
        = keys.filterMap (fun k => (inMemGetK cfg st k).map (fun v => (k, v))))
    ∧ (∀ (cfg : StoreConfig) (st : List MDoc) (keys : List PyVal),
      List.Pairwise (fun a b => pyBeq a b = false) keys →
      (∀ k ∈ keys, (embGet cfg st k).all truthy = true) →
      embBatchGet cfg st keys
        = keys.filterMap (fun k => (embGet cfg st k).map (fun v => (k, v)))) := by
  constructor
  · intro cfg st keys hpw
    unfold inMemBatchGetK
    rw [batchFold_filterMap (inMemGetK cfg st) keys []
      (fun k _ q hq => absurd hq (List.not_mem_nil q)) hpw]
    simp
  · intro cfg st keys hpw htruthy
    unfold embBatchGet
    rw [embBatchGet_plain_fold cfg st keys []]
    rw [batchFold_filterMap _ keys [] (fun k _ q hq => absurd hq (List.not_mem_nil q)) hpw]
    rw [List.nil_append]
    apply List.filterMap_congr
    intro k hk
    cases hg : embGet cfg st k with
    | none => rfl
    | some v =>
      have := htruthy k hk
      rw [hg] at this
      have ht : truthy v = true := by simpa [Option.all] using this
      simp [ht]

/-- Witness for the amended C5 on both backends with one present and one
absent key. -/
theorem c5_batch_point_equivalence_witness :
    inMemBatchGetK cfgBare [([PyVal.vstr "a"], [("t", .vstr "x")])] [.vstr "a", .vstr "b"]
      = [(.vstr "a", .vdict [("t", .vstr "x")])]
    ∧ embBatchGet cfgBare [⟨.vstr "a", [⟨.vdict [("v", .vtup [])], [("t", .vstr "x")]⟩]⟩]
        [.vstr "a", .vstr "b"]
      = [(.vstr "a", .vdict [("t", .vstr "x")])] := by
  constructor
  · rw [(c5_batch_point_equivalence).1 cfgBare [([PyVal.vstr "a"], [("t", .vstr "x")])]
      [.vstr "a", .vstr "b"] (by decide)]
    rfl
  · rw [(c5_batch_point_equivalence).2 cfgBare
      [⟨.vstr "a", [⟨.vdict [("v", .vtup [])], [("t", .vstr "x")]⟩]⟩]
      [.vstr "a", .vstr "b"] (by decide) (by decide)]
    rfl

theorem getField_replace (f : String) (key : PyVal) (n : String) :
    ∀ flds : List (String × PyVal), flds.any (fun p => p.1 == f) = true →
    getField (.vobj n (flds.map (fun p => if p.1 == f then (p.1, key) else p))) f = some key
  | [], h => by cases h
  | p :: rest, h => by
    by_cases hp : (p.1 == f) = true
    · show Option.map Prod.snd (List.find? (fun q => q.1 == f)
          ((p :: rest).map (fun q => if q.1 == f then (q.1, key) else q))) = some key
      rw [List.map_cons, if_pos hp]
      have hfind : List.find? (fun q : String × PyVal => q.1 == f)
          ((p.1, key) :: rest.map (fun q => if q.1 == f then (q.1, key) else q))
          = some (p.1, key) := List.find?_cons_of_pos _ hp
      rw [hfind]
      rfl
    · have hne : (p.1 == f) = false := by simpa using hp
      have hrest : rest.any (fun p => p.1 == f) = true := by
        rw [List.any_cons] at h
        rcases Bool.or_eq_true_iff.mp h with h1 | h2
        · exact absurd h1 hp
        · exact h2
      show Option.map Prod.snd (List.find? (fun q => q.1 == f)
          ((p :: rest).map (fun q => if q.1 == f then (q.1, key) else q))) = some key
      rw [List.map_cons, if_neg hp]
      have hfind : List.find? (fun q : String × PyVal => q.1 == f)
          (p :: rest.map (fun q => if q.1 == f then (q.1, key) else q))
          = List.find? (fun q : String × PyVal => q.1 == f)
              (rest.map (fun q => if q.1 == f then (q.1, key) else q)) :=
        List.find?_cons_of_neg _ (by simp [hne])
      rw [hfind]
      exact getField_replace f key n rest hrest

/-- Counterexample to C9 as stated: with a CopyOfKey field owner declared on
the value type, get returns the value with owner populated by the queried
key, but get_by_index decodes matches with key None, so the returned value
has owner = None rather than the owning key "u". -/
theorem c9_copy_of_key_counterexample :
    inMemGetK cfgMirror [([PyVal.vstr "u"], [("title", .vstr "x")])] (.vstr "u")
      = some (.vobj "Note" [("title", .vstr "x"), ("owner", .vstr "u")])
    ∧ inMemGetByIndex cfgMirror tdTitleIndex (.vobj "TitleIndex" [("title", .vstr "x")])
        [([PyVal.vstr "u"], [("title", .vstr "x")])]
      = [.vobj "Note" [("title", .vstr "x"), ("owner", .vnone)]]
    ∧ getField (.vobj "Note" [("title", .vstr "x"), ("owner", .vnone)]) "owner"
      ≠ some (.vstr "u") := by
  refine ⟨by decide, ?_, by decide⟩
  have hdisc : discoverAttrsFor tdTitleIndex = (["title"], ["title"], []) := by
    simp [discoverAttrsFor, tdTitleIndex, pkPairs, skPairs, List.mergeSort]
  unfold inMemGetByIndex
  rw [hdisc]
  decide

/-- C9 amended. The key-mirror field: (1) whenever _from_data_dict succeeds in
building a typed value and a key is supplied, the CopyOfKey field of the
result is the supplied key; (2) in-memory get supplies the queried key to
_from_data_dict; (3) in-memory get_by_index decodes every result with key
None, so index reads do not receive the owning key (see the counterexample);
(4) the CopyOfKey field is never persisted: default_to_dict excludes it from
the encoded field map. -/
theorem c9_copy_of_key_population :
    (∀ (cfg : StoreConfig) (name : String) (td : TypeDesc) (f : String) (data : DataDict)
        (key : PyVal) (n : String) (fl : List (String × PyVal)),
      cfg.dataType = some (.classK name td) →
      copyOfKeyField td = some f →
      fromDataDict cfg data (some key) = .vobj n fl →
      getField (.vobj n fl) f = some key)
    ∧ (∀ (cfg : StoreConfig) (st : InMemState (List PyVal)) (key : PyVal),
      inMemGetK cfg st key
        = (lookupBy pyBeqList st (getKeyTuple cfg.keyAttrs cfg.keyTd key none)).map
            (fun d => fromDataDict cfg d (some key)))
    ∧ (∀ (cfg : StoreConfig) (idxTy : TypeDesc) (ik : PyVal) (st : InMemState (List PyVal)),
      ∀ v ∈ inMemGetByIndex cfg idxTy ik st, ∃ p ∈ st, v = fromDataDict cfg p.2 none)
    ∧ (∀ (td : TypeDesc) (n : String) (fl : List (String × PyVal)) (f : String),
      f ∈ copyOfKeyFields td →
      ((default_to_dict td (.vobj n fl)).map Prod.fst).contains f = false) := by
  refine ⟨?_, ?_, ?_, ?_⟩
  · intro cfg name td f data key n fl hdt hcf hres
    have hfmem : f ∈ td.map Prod.fst := by
      have hcf2 := hcf
      unfold copyOfKeyField at hcf2
      rcases Option.map_eq_some'.mp hcf2 with ⟨fd, hfd, hfdf⟩
      exact List.mem_map.mpr ⟨fd, List.mem_of_find?_eq_some hfd, hfdf⟩
    unfold fromDataDict at hres
    rw [hdt] at hres
    dsimp only at hres
    rw [hcf] at hres
    dsimp only at hres
    cases hc : constructClass name td
        (if data.any (fun p => p.1 == f) then data else data ++ [(f, .vnone)]) with
    | none =>
      rw [hc] at hres
      simp [isDict] at hres
    | some o =>
      have ho : o = .vobj name (td.map (fun fd => (fd.1,
          dictGet (if data.any (fun p => p.1 == f) then data
            else data ++ [(f, .vnone)]) fd.1))) := by
        unfold constructClass at hc
        by_cases hcond : (td.all (fun fd =>
            (if data.any (fun p => p.1 == f) then data else data ++ [(f, .vnone)]).any
              (fun p => p.1 == fd.1)) &&
            (if data.any (fun p => p.1 == f) then data else data ++ [(f, .vnone)]).all
              (fun p => td.any (fun fd => fd.1 == p.1))) = true
        · rw [if_pos hcond] at hc
          exact ((Option.some.injEq _ _).mp hc).symm
        · rw [if_neg hcond] at hc
          cases hc
      rw [hc] at hres
      subst ho
      dsimp only at hres
      simp only [isDict] at hres
      rw [if_neg (by simp)] at hres
      unfold populateCopyOfKey at hres
      rw [hdt] at hres
      dsimp only at hres
      rw [hcf] at hres
      dsimp only at hres
      have hany : (td.map (fun fd => (fd.1,
          dictGet (if data.any (fun p => p.1 == f) then data
            else data ++ [(f, .vnone)]) fd.1))).any (fun p => p.1 == f) = true := by
        rw [List.any_eq_true]
        rcases List.mem_map.mp hfmem with ⟨fd, hfd, hfdf⟩
        exact ⟨_, List.mem_map.mpr ⟨fd, hfd, rfl⟩, by simp [hfdf]⟩
      rw [if_pos hany] at hres
      cases hres
      exact getField_replace f key name _ hany
  · intro cfg st key
    rfl
  · intro cfg idxTy ik st v hv
    unfold inMemGetByIndex at hv
    rcases List.mem_filterMap.mp hv with ⟨p, hp, hpv⟩
    by_cases hm : matchIndex p.2
        (getKeyTuple cfg.keyAttrs idxTy ik (some (discoverAttrsFor idxTy).1))
        (discoverAttrsFor idxTy).1 = true
    · rw [if_pos hm] at hpv
      exact ⟨p, hp, ((Option.some.injEq _ _).mp hpv).symm⟩
    · rw [if_neg hm] at hpv
      cases hpv
  · intro td n fl f hf
    have hcf : (copyOfKeyFields td).contains f = true := List.elem_iff.mpr hf
    rw [Bool.eq_false_iff]
    intro hcontra
    have hmem : f ∈ (default_to_dict td (.vobj n fl)).map Prod.fst := List.elem_iff.mp hcontra
    rcases List.mem_map.mp hmem with ⟨p, hp, hpf⟩
    simp only [default_to_dict] at hp
    have hcond := (List.mem_filter.mp hp).2
    rw [hpf, hcf] at hcond
    simp at hcond

/-- Witness for the amended C9: the mirrored Note store populates owner with
the queried key on a typed get result. -/
theorem c9_copy_of_key_population_witness :
    getField (.vobj "Note" [("title", .vstr "x"), ("owner", .vstr "u")]) "owner"
      = some (.vstr "u") :=
  (c9_copy_of_key_population).1 cfgMirror "Note" tdNoteMirror "owner"
    [("title", .vstr "x")] (.vstr "u") "Note"
    [("title", .vstr "x"), ("owner", .vstr "u")] rfl (by decide) (by decide)

theorem tupLe_total {σ : Type} [LinearOrder σ] : ∀ a b : List σ, (tupLe a b || tupLe b a) = true
  | [], [] => rfl
  | [], _ :: _ => rfl
  | _ :: _, [] => rfl
  | a :: as, b :: bs => by
    by_cases hab : a = b
    · subst hab
      simp only [tupLe, if_pos rfl]
      exact tupLe_total as bs
    · have hba : ¬b = a := fun h => hab h.symm
      simp only [tupLe, if_neg hab, if_neg hba]
      rcases le_total a b with h | h
      · simp [h]
      · simp [h]

theorem tupLe_trans {σ : Type} [LinearOrder σ] :
    ∀ a b c : List σ, tupLe a b = true → tupLe b c = true → tupLe a c = true
  | [], _, _, _, _ => rfl
  | a :: as, [], c, h1, _ => by simp [tupLe] at h1
  | a :: as, b :: bs, [], _, h2 => by simp [tupLe] at h2
  | a :: as, b :: bs, c :: cs, h1, h2 => by
    by_cases hab : a = b
    · subst hab
      rw [tupLe, if_pos rfl] at h1
      by_cases hac : a = c
      · subst hac
        rw [tupLe, if_pos rfl] at h2 ⊢
        exact tupLe_trans as bs cs h1 h2
      · rw [tupLe, if_neg hac] at h2 ⊢
        exact h2
    · rw [tupLe, if_neg hab] at h1
      have hle1 : a ≤ b := of_decide_eq_true h1
      by_cases hbc : b = c
      · subst hbc
        rw [tupLe, if_neg hab]
        exact h1
      · rw [tupLe, if_neg hbc] at h2
        have hle2 : b ≤ c := of_decide_eq_true h2
        by_cases hac : a = c
        · subst hac
          have : a = b := le_antisymm hle1 (le_trans hle2 (le_refl a))
          exact absurd this hab
        · rw [tupLe, if_neg hac]
          exact decide_eq_true (le_trans hle1 hle2)

/-- C2. In-memory get_range: for every pair of bounds with a <= b under the
lexicographic tuple order, the result consists exactly of the stored records
whose key tuples lie in the inclusive interval, in ascending tuple order by
default, in descending order under reverse, and the reversed call returns
exactly the reversal of the forward call (same element set). The key-tuple
projection and record decoding applied per element are instantiated with
identities, matching the claim stated at the tuple level. -/
theorem c2_in_memory_get_range {σ : Type} [LinearOrder σ]
    (st : InMemState (List σ)) (a b : List σ) (rev : Bool)
    (hnd : (st.map Prod.fst).Nodup) (hab : tupLe a b = true) :
    (∀ (kt : List σ) (d : DataDict),
      (kt, d) ∈ inMemGetRange (fun x y => decide (x = y)) tupLe id (fun _ d => d) st a b rev
        ↔ ((kt, d) ∈ st ∧ tupLe a kt = true ∧ tupLe kt b = true))
    ∧ List.Pairwise (fun p q : List σ × DataDict => tupLe p.1 q.1 = true)
        (inMemGetRange (fun x y => decide (x = y)) tupLe id (fun _ d => d) st a b false)
    ∧ List.Pairwise (fun p q : List σ × DataDict => tupLe q.1 p.1 = true)
        (inMemGetRange (fun x y => decide (x = y)) tupLe id (fun _ d => d) st a b true)
    ∧ inMemGetRange (fun x y => decide (x = y)) tupLe id (fun _ d => d) st a b true
      = (inMemGetRange (fun x y => decide (x = y)) tupLe id (fun _ d => d) st a b false).reverse := by
  have hrange : ∀ rv : Bool, inMemGetRange (fun x y => decide (x = y)) tupLe id
      (fun _ d => d) st a b rv
      = ((if rv then ((st.map Prod.fst).mergeSort tupLe).reverse
          else (st.map Prod.fst).mergeSort tupLe).filter
            (fun kt => tupLe a kt && tupLe kt b)).map
          (fun kt => (kt, (lookupBy (fun x y => decide (x = y)) st kt).getD [])) := by
    intro rv
    cases rv <;> rfl
  have hsorted : List.Pairwise (fun x y : List σ => tupLe x y = true)
      ((st.map Prod.fst).mergeSort tupLe) :=
    List.sorted_mergeSort (fun x y z => tupLe_trans x y z) tupLe_total (st.map Prod.fst)
  have hmemrange : ∀ (rv : Bool) (kt : List σ) (d : DataDict),
      (kt, d) ∈ inMemGetRange (fun x y => decide (x = y)) tupLe id (fun _ d => d) st a b rv
        ↔ ((kt, d) ∈ st ∧ tupLe a kt = true ∧ tupLe kt b = true) := by
    intro rv kt d
    rw [hrange rv, List.mem_map]
    constructor
    · rintro ⟨kt', hkt', hgk⟩
      have hkteq : kt' = kt := congrArg Prod.fst hgk
      subst hkteq
      have hd : ((lookupBy (fun x y => decide (x = y)) st kt').getD []) = d :=
        congrArg Prod.snd hgk
      have hmf := List.mem_filter.mp hkt'
      have hmem0 : kt' ∈ (st.map Prod.fst).mergeSort tupLe := by
        cases rv
        · simpa using hmf.1
        · rw [← List.mem_reverse]
          simpa using hmf.1
      have hkeys : kt' ∈ st.map Prod.fst := List.mem_mergeSort.mp hmem0
      rcases List.mem_map.mp hkeys with ⟨p, hp, hpf⟩
      have hpmem : (kt', p.2) ∈ st := by
        rw [← hpf]
        exact hp
      have hlk : lookupBy (fun x y => decide (x = y)) st kt' = some p.2 :=
        (lookupBy_eq_some_iff st kt' p.2 hnd).mpr hpmem
      rw [hlk] at hd
      simp only [Option.getD_some] at hd
      subst hd
      have hb : tupLe a kt' = true ∧ tupLe kt' b = true := by
        simpa using hmf.2
      exact ⟨hpmem, hb.1, hb.2⟩
    · rintro ⟨hmem, h1, h2⟩
      have hlk : lookupBy (fun x y => decide (x = y)) st kt = some d :=
        (lookupBy_eq_some_iff st kt d hnd).mpr hmem
      refine ⟨kt, ?_, ?_⟩
      · rw [List.mem_filter]
        constructor
        · have hkeys : kt ∈ st.map Prod.fst := List.mem_map.mpr ⟨(kt, d), hmem, rfl⟩
          have hms : kt ∈ (st.map Prod.fst).mergeSort tupLe :=
            (@List.mem_mergeSort (List σ) tupLe kt (st.map Prod.fst)).mpr hkeys
          cases rv
          · simpa using hms
          · simpa [List.mem_reverse] using hms
        · simp [h1, h2]
      · rw [hlk]
        rfl
  refine ⟨hmemrange rev, ?_, ?_, ?_⟩
  · rw [hrange false]
    apply List.pairwise_map.mpr
    exact (hsorted.filter (fun kt => tupLe a kt && tupLe kt b))
  · rw [hrange true]
    apply List.pairwise_map.mpr
    have hrev : List.Pairwise (fun x y : List σ => tupLe y x = true)
        ((st.map Prod.fst).mergeSort tupLe).reverse :=
      List.pairwise_reverse.mpr hsorted
    exact (hrev.filter (fun kt => tupLe a kt && tupLe kt b))
  · rw [hrange true, hrange false]
    rw [if_pos rfl, if_neg (by simp)]
    rw [List.filter_reverse, List.map_reverse]

/-- Witness for C2 over integer component tuples: the reversed range equals
the reversal of the forward range on a concrete two-record store. -/
theorem c2_in_memory_get_range_witness :
    inMemGetRange (fun x y : List Int => decide (x = y)) tupLe id (fun _ d => d)
        ([([2], [("t", PyVal.vstr "y")]), ([1], [("t", PyVal.vstr "x")])] : InMemState (List Int))
        [1] [2] true
      = (inMemGetRange (fun x y : List Int => decide (x = y)) tupLe id (fun _ d => d)
        ([([2], [("t", PyVal.vstr "y")]), ([1], [("t", PyVal.vstr "x")])] : InMemState (List Int))
        [1] [2] false).reverse :=
  (c2_in_memory_get_range
    ([([2], [("t", PyVal.vstr "y")]), ([1], [("t", PyVal.vstr "x")])] : InMemState (List Int))
    [1] [2] true (by decide) (by decide)).2.2.2

/-- C6. Embedded partition scoping: every pair returned by get_range on the
embedded backend is the decoding of an item of the single partition document
found by the _id derived from the partition tuple of start_key, and the
result depends only on that document: two collection states agreeing on that
lookup give identical results. No returned item can come from another
partition. -/
theorem c6_embedded_partition_scoping (cfg : StoreConfig) (st : List MDoc)
    (startKey endKey : PyVal) (rev : Bool) :
    (∀ x ∈ embGetRange cfg st startKey endKey rev,
      ∃ doc, st.find? (fun d => mongoEq d.id (keyToMongoPkId cfg startKey)) = some doc
        ∧ ∃ item ∈ doc.items, x = embRangeItemPair cfg startKey item)
    ∧ (∀ st2 : List MDoc,
      st2.find? (fun d => mongoEq d.id (keyToMongoPkId cfg startKey))
        = st.find? (fun d => mongoEq d.id (keyToMongoPkId cfg startKey)) →
      embGetRange cfg st2 startKey endKey rev = embGetRange cfg st startKey endKey rev) := by
  constructor
  · intro x hx
    unfold embGetRange at hx
    cases hf : st.find? (fun d => mongoEq d.id (keyToMongoPkId cfg startKey)) with
    | none =>
      rw [hf] at hx
      exact absurd hx (List.not_mem_nil x)
    | some doc =>
      rw [hf] at hx
      dsimp only at hx
      refine ⟨doc, rfl, ?_⟩
      have hx2 : x ∈ doc.items.filterMap (fun item =>
          if chainLeB (getSortKeyTuple cfg startKey) (getSortKeyTupleAux cfg [] item.sk)
              (getSortKeyTuple cfg endKey) then
            some (embRangeItemPair cfg startKey item)
          else none) := by
        unfold trySortBy at hx
        split at hx
        · exact List.mem_mergeSort.mp hx
        · exact hx
      rcases List.mem_filterMap.mp hx2 with ⟨item, hitem, hcond⟩
      by_cases hch : chainLeB (getSortKeyTuple cfg startKey)
          (getSortKeyTupleAux cfg [] item.sk) (getSortKeyTuple cfg endKey) = true
      · rw [if_pos hch] at hcond
        exact ⟨item, hitem, ((Option.some.injEq _ _).mp hcond).symm⟩
      · rw [if_neg hch] at hcond
        cases hcond
  · intro st2 heq
    unfold embGetRange
    rw [heq]

/-- Witness for C6: in the two-partition fixture, the single pair returned by
a forward range over partition a is the decoding of the note-1 item of the
partition-a document. -/
theorem c6_embedded_partition_scoping_witness :
    ∃ doc, st6.find? (fun d => mongoEq d.id (keyToMongoPkId cfgMyKey k6start)) = some doc
      ∧ ∃ item ∈ doc.items,
        embRangeItemPair cfgMyKey k6start item6a = embRangeItemPair cfgMyKey k6start item :=
  (c6_embedded_partition_scoping cfgMyKey st6 k6start k6end false).1
    (embRangeItemPair cfgMyKey k6start item6a)
    (by
      have hpre : embGetRange cfgMyKey st6 k6start k6end false
          = [embRangeItemPair cfgMyKey k6start item6a] := by
        unfold embGetRange
        rw [show st6.find? (fun d => mongoEq d.id (keyToMongoPkId cfgMyKey k6start))
            = some ⟨.vdict [("user_id", .vstr "a")], [item6a]⟩ from by decide]
        dsimp only
        rw [show ([item6a] : List MItem).filterMap (fun item =>
            if chainLeB (getSortKeyTuple cfgMyKey k6start) (getSortKeyTupleAux cfgMyKey [] item.sk)
                (getSortKeyTuple cfgMyKey k6end) then
              some (embRangeItemPair cfgMyKey k6start item)
            else none) = [embRangeItemPair cfgMyKey k6start item6a] from by decide]
        unfold trySortBy
        rw [if_pos (by decide)]
        simp [List.mergeSort]
      rw [hpre]
      exact List.mem_singleton.mpr rfl)
